import Mathlib

set_option maxRecDepth 8000

/-!
Verification development for the DocuMind-HR question-answering core.

Python strings are modelled as lists of characters (`Str`); the UTF-8 byte
length of a string is the sum of the UTF-8 sizes of its characters.  Python's
`s.encode("utf-8")[:n].decode("utf-8", errors="ignore")` on a valid string
equals the longest character prefix whose byte length is at most `n`
(the trailing partial code point is dropped), and
`s.encode("utf-8")[-n:].decode("utf-8", errors="ignore")` (for `n > 0`)
equals the longest character suffix whose byte length is at most `n`
(a leading partial code point is dropped).
-/

/-- Python strings, modelled as lists of characters. -/
abbrev Str := List Char

/-- Convert a Lean string literal to the `Str` model. -/
def strL (s : String) : Str := s.toList

/-- UTF-8 byte length of a string: `len(s.encode("utf-8"))`. -/
def utf8Len (s : Str) : Nat := (s.map Char.utf8Size).sum

/-- `_truncate_utf8_to_bytes` (ask_router / wa_router / llm_client):
`s.encode("utf-8")[:max_bytes].decode("utf-8", errors="ignore")`, i.e. the
longest character prefix whose UTF-8 byte length is at most `maxBytes`. -/
def truncBytes : Str → Nat → Str
  | [], _ => []
  | c :: cs, n => if c.utf8Size ≤ n then c :: truncBytes cs (n - c.utf8Size) else []

/-- `s.encode("utf-8")[-n:].decode("utf-8", errors="ignore")` for `n > 0`:
the longest character suffix whose UTF-8 byte length is at most `n`. -/
def suffixBytes : Str → Nat → Str
  | [], _ => []
  | c :: cs, n => if utf8Len (c :: cs) ≤ n then c :: cs else suffixBytes cs n

/-- Python `str.strip()` (ASCII-ish whitespace model). -/
def trimS (s : Str) : Str :=
  ((s.dropWhile Char.isWhitespace).reverse.dropWhile Char.isWhitespace).reverse

theorem utf8Len_nil : utf8Len [] = 0 := rfl

theorem utf8Len_cons (c : Char) (s : Str) :
    utf8Len (c :: s) = c.utf8Size + utf8Len s := by
  simp [utf8Len]

theorem utf8Len_append (l r : Str) :
    utf8Len (l ++ r) = utf8Len l + utf8Len r := by
  simp [utf8Len]

theorem utf8Len_replicate (n : Nat) (c : Char) :
    utf8Len (List.replicate n c) = n * c.utf8Size := by
  induction n with
  | zero => simp [utf8Len]
  | succ k ih => rw [List.replicate_succ, utf8Len_cons, ih, Nat.succ_mul]; ring

/-- Byte-truncation never exceeds the budget. -/
theorem utf8Len_truncBytes_le (s : Str) (n : Nat) :
    utf8Len (truncBytes s n) ≤ n := by
  induction s generalizing n with
  | nil => simp [truncBytes, utf8Len]
  | cons c cs ih =>
    by_cases h : c.utf8Size ≤ n
    · simp only [truncBytes, if_pos h, utf8Len_cons]
      have := ih (n - c.utf8Size)
      omega
    · simp [truncBytes, if_neg h, utf8Len]

/-- Byte-truncation is the identity when the string already fits. -/
theorem truncBytes_of_le {s : Str} {n : Nat} (h : utf8Len s ≤ n) :
    truncBytes s n = s := by
  induction s generalizing n with
  | nil => rfl
  | cons c cs ih =>
    rw [utf8Len_cons] at h
    have hc : c.utf8Size ≤ n := le_trans (Nat.le_add_right _ _) h
    simp only [truncBytes, if_pos hc]
    rw [ih (by omega)]

/-- Byte-truncation distributes over append when the first part fits. -/
theorem truncBytes_append_of_le {l : Str} {n : Nat} (r : Str) (h : utf8Len l ≤ n) :
    truncBytes (l ++ r) n = l ++ truncBytes r (n - utf8Len l) := by
  induction l generalizing n with
  | nil => simp [utf8Len]
  | cons c cs ih =>
    rw [utf8Len_cons] at h
    have hc : c.utf8Size ≤ n := le_trans (Nat.le_add_right _ _) h
    simp only [List.cons_append, truncBytes, if_pos hc, List.append_eq]
    rw [ih (n := n - c.utf8Size) (by omega)]
    have harith : n - c.utf8Size - utf8Len cs = n - utf8Len (c :: cs) := by
      rw [utf8Len_cons]; omega
    rw [harith]

/-- For a one-byte character, truncation of a replicate keeps `min m n` copies. -/
theorem truncBytes_replicate {c : Char} (hc : c.utf8Size = 1) (m n : Nat) :
    truncBytes (List.replicate m c) n = List.replicate (min m n) c := by
  induction m generalizing n with
  | zero => simp [truncBytes]
  | succ k ih =>
    by_cases h : 1 ≤ n
    · rw [List.replicate_succ, truncBytes, hc, if_pos h, ih]
      have hmin : min (k + 1) n = (min k (n - 1)) + 1 := by omega
      rw [hmin, List.replicate_succ]
    · have hn : n = 0 := by omega
      subst hn
      rw [List.replicate_succ, truncBytes, hc]
      simp

/-- For a one-byte character, the byte suffix of a replicate keeps `min m n` copies. -/
theorem suffixBytes_replicate {c : Char} (hc : c.utf8Size = 1) (m n : Nat) :
    suffixBytes (List.replicate m c) n = List.replicate (min m n) c := by
  induction m with
  | zero => simp [suffixBytes]
  | succ k ih =>
    by_cases h : k + 1 ≤ n
    · have hlen : utf8Len (c :: List.replicate k c) ≤ n := by
        rw [← List.replicate_succ, utf8Len_replicate, hc]; omega
      rw [List.replicate_succ, suffixBytes, if_pos hlen]
      have hmin : min (k + 1) n = k + 1 := by omega
      rw [hmin, List.replicate_succ]
    · have hlen : ¬ utf8Len (c :: List.replicate k c) ≤ n := by
        rw [← List.replicate_succ, utf8Len_replicate, hc]; omega
      rw [List.replicate_succ, suffixBytes, if_neg hlen, ih]
      congr 1
      omega

/-- The byte suffix never exceeds the budget. -/
theorem utf8Len_suffixBytes_le (s : Str) (n : Nat) :
    utf8Len (suffixBytes s n) ≤ n := by
  induction s with
  | nil => simp [suffixBytes, utf8Len]
  | cons c cs ih =>
    by_cases h : utf8Len (c :: cs) ≤ n
    · simpa [suffixBytes, if_pos h] using h
    · simpa [suffixBytes, if_neg h] using ih

/-- A nonempty suffix determines the last element. -/
theorem getLast?_of_suffix {l r : Str} (hne : l ≠ []) (h : l <:+ r) :
    r.getLast? = l.getLast? := by
  obtain ⟨t, rfl⟩ := h
  rw [List.getLast?_append]
  have hs : l.getLast?.isSome := List.getLast?_isSome.mpr hne
  obtain ⟨x, hx⟩ := Option.isSome_iff_exists.mp hs
  rw [hx]
  rfl

/-!
## `Ask/be/services/llm_client.py`

Environment knobs are fixed at their defaults: `LLM_PROMPT_MAX_BYTES = 9000`,
`LLM_PROMPT_TAIL_BYTES = 2200`, `LLM_AUTOSHRINK` on, `LLM_STYLE` and
`LLM_LENGTH_HINT` empty.  The shrink factors `0.7` and `0.35` are IEEE-754
doubles in the source; at this default configuration every product the code
computes (`int(9000*0.7)`, `int(6300*0.35)`, ...) rounds to the same value as
exact rational arithmetic, which is what the embedding uses.
-/

/-- Default `LLM_PROMPT_MAX_BYTES`. -/
def promptMaxBytes : Nat := 9000

/-- Default `LLM_PROMPT_TAIL_BYTES`. -/
def promptTailBytes : Nat := 2200

/-- The elision marker `"\n…\n"` (5 UTF-8 bytes). -/
def elisionMarker : Str := ['\n', '…', '\n']

/-- `_cap_prompt_bytes_keep_tail`: if the prompt exceeds `maxBytes`, keep a
byte-prefix and a byte-suffix joined by the marker, then re-truncate the whole
thing to `maxBytes`.  `tail = max(0, min(tail_bytes, max_bytes // 2))`; Python's
`b[-0:]` is the whole string, hence the `tail = 0` case. -/
def capPromptBytesKeepTail (prompt : Str) (maxBytes tailBytes : Nat) : Str :=
  if utf8Len prompt ≤ maxBytes then prompt
  else
    let tail := min tailBytes (maxBytes / 2)
    let head := maxBytes - tail
    let headS := truncBytes prompt head
    let tailS := if tail = 0 then prompt else suffixBytes prompt tail
    truncBytes (headS ++ elisionMarker ++ tailS) maxBytes

/-- `_apply_hints`: with `LLM_STYLE` and `LLM_LENGTH_HINT` at their empty
defaults, `parts` is empty and the prompt is returned unchanged. -/
def applyHints (prompt : Str) : Str := prompt

/-- Python's `in` on strings: substring containment. -/
def containsSub (pat t : Str) : Bool := decide (pat <:+: t)

/-- `_is_context_size_error`: lowercase the body and look for any of the five
context-overflow markers. -/
def isContextSizeError (respText : Str) : Bool :=
  let t := respText.map Char.toLower
  containsSub (strL "context size") t
  || containsSub (strL "max context") t
  || containsSub (strL "exceeds the available context") t
  || containsSub (strL "token limit") t
  || containsSub (strL "too many tokens") t

/-- A shrink factor, represented as an exact fraction `num/den`.  At the
default configuration the IEEE-754 products the source computes round to the
same integers as this exact arithmetic. -/
structure Factor where
  num : Nat
  den : Nat
deriving DecidableEq, Repr

/-- The autoshrink factor sequence `[1.0, 0.7, 0.5, 0.35, 0.25]`. -/
def shrinkFactors : List Factor := [⟨1, 1⟩, ⟨7, 10⟩, ⟨1, 2⟩, ⟨7, 20⟩, ⟨1, 4⟩]

/-- Per-factor byte cap (`cap = max(1500, int(PROMPT_MAX_BYTES * f))`). -/
def capOfFactor (f : Factor) : Nat := max 1500 (promptMaxBytes * f.num / f.den)

/-- Per-factor tail size (`tail = max(600, min(PROMPT_TAIL_BYTES, int(cap * 0.35)))`). -/
def tailOfFactor (f : Factor) : Nat :=
  max 600 (min promptTailBytes (capOfFactor f * 35 / 100))

/-- The prompt sent at shrink factor `f`: factor `1.0` uses the initial cap,
smaller factors re-truncate the original hinted prompt at the shrunk cap. -/
def cappedTry (hinted : Str) (f : Factor) : Str :=
  if f.num < f.den then capPromptBytesKeepTail hinted (capOfFactor f) (tailOfFactor f)
  else capPromptBytesKeepTail hinted promptMaxBytes promptTailBytes

/-- Outcome of one `_post_prompt` round trip: an HTTP response with a status
and a body, or a transport-level exception carrying a message. -/
inductive GwOut where
  | resp (status : Nat) (body : Str)
  | transport (msg : Str)
deriving DecidableEq, Repr

/-- The dictionary `chat` returns (`reply`, optional `error`), instrumented
with the list of prompts actually posted to the gateway. -/
structure ChatOut where
  reply : Str
  error : Option Str
  sent : List Str
deriving DecidableEq, Repr

/-- `f"HTTP {status}"`. -/
def httpErr (status : Nat) : Str := strL "HTTP " ++ strL (toString status)

/-- Text extraction for a gateway whose body is plain (non-JSON-object) text:
`_extract_text_and_tokens` then falls through to `resp.text` and strips it. -/
def extractText (body : Str) : Str := trimS body

/-- The shrink-and-retry loop body of `chat`.  One iteration per factor:
a 2xx returns the extracted reply; an HTTP error with status 400, a
context-size body and a remaining factor advances; any other HTTP error or
any transport error fails immediately; the post-loop return (reached only if
the list is empty) uses `last_err or "context_too_large"`.  The factor list
has pairwise-distinct entries, so the source's `f != shrink_factors[-1]` test
is `rest ≠ []` here. -/
def chatGo (oracle : Str → GwOut) (hinted : Str) :
    List Factor → Option Str → List Str → ChatOut
  | [], lastErr, sentAcc => ⟨[], some (lastErr.getD (strL "context_too_large")), sentAcc⟩
  | f :: rest, _, sentAcc =>
    let p := cappedTry hinted f
    let sent := sentAcc ++ [p]
    match oracle p with
    | .transport msg => ⟨[], some msg, sent⟩
    | .resp s b =>
      if 200 ≤ s ∧ s < 300 then ⟨extractText b, none, sent⟩
      else if s = 400 ∧ isContextSizeError b ∧ rest ≠ [] then
        chatGo oracle hinted rest (some (httpErr s)) sent
      else ⟨[], some (httpErr s), sent⟩

/-- `chat` with autoshrink on: apply hints, then run the factor loop. -/
def chatModel (oracle : Str → GwOut) (prompt : Str) : ChatOut :=
  chatGo oracle (applyHints prompt) shrinkFactors none []

/-!
## Prompt builders: `Ask/be/ask_router.py` and `Ask/be/wa_router.py`

Passages arrive as dicts with keys `doc_id`, `chunk`, `text`, `score`
(the shape produced by `Ask/be/services/retriever._norm`).  The two builders
differ only in the header text, the language test, and in that
`_build_grounded_prompt` strips a passage's text before measuring it while
`_build_prompt` measures the raw text.  `int(total_chars * (pct / 100.0))`
is modelled as exact integer arithmetic `total_chars * pct / 100`.
-/

/-- A retrieved passage as the Ask services see it. -/
structure Passage where
  docId : Str
  chunk : Int
  text : Str
  score : ℚ
deriving DecidableEq, Repr

/-- `f"[{doc_id}#{chunk}] {t}\n"`. -/
def evidenceLine (p : Passage) (t : Str) : Str :=
  strL "[" ++ p.docId ++ strL "#" ++ strL (toString p.chunk) ++ strL "] " ++ t ++ ['\n']

/-- `(lang or "en").lower()`. -/
def langLower (lang : Str) : Str :=
  (if lang = [] then strL "en" else lang).map Char.toLower

/-- The wa_router header. -/
def waHeader : Str :=
  strL "You are DocuMind. Answer clearly and concisely using ONLY the evidence below.\nDo NOT include literal tags like [DOC#…] in your answer; citations are attached separately.\n\nEVIDENCE:\n"

/-- The ask_router header. -/
def askHeader : Str :=
  strL "You are DocuMind. Answer clearly and concisely using ONLY the evidence below.\nIf the evidence does not contain the answer, say you don't have enough information.\n\nEVIDENCE:\n"

/-- wa_router question block: `"\n\nQUESTION: {q}\n"` plus the language
directive, chosen by `(lang or "en").lower() == "hi"`. -/
def qlineWA (question lang : Str) : Str :=
  strL "\n\nQUESTION: " ++ question ++ ['\n'] ++
    (if langLower lang = strL "hi" then strL "Answer in Hindi." else strL "Answer in English.")

/-- ask_router question block: same shape, language chosen by
`(lang or "en").lower().startswith("hi")`. -/
def qlineAsk (question lang : Str) : Str :=
  strL "\n\nQUESTION: " ++ question ++ ['\n'] ++
    (if (strL "hi").isPrefixOf (langLower lang) then strL "Answer in Hindi."
     else strL "Answer in English.")

/-- The evidence loop of `_build_prompt` (wa_router): returns the
concatenation of the evidence lines appended after the header.  `usedB` is
`used_bytes`, `usedC` is `used_chars`; a passage with falsy text is skipped;
the char soft cap breaks before the line is built; a line overflowing the
byte budget is truncated (if any budget remains) and ends the loop. -/
def waEvLoop (budget pctChars : Nat) : List Passage → Nat → Nat → Str
  | [], _, _ => []
  | p :: rest, usedB, usedC =>
    if p.text = [] then waEvLoop budget pctChars rest usedB usedC
    else
      let usedC2 := usedC + p.text.length
      if pctChars < usedC2 ∧ 0 < pctChars then []
      else
        let line := evidenceLine p (trimS p.text)
        let lb := utf8Len line
        if budget < usedB + lb then
          if 0 < budget - usedB then truncBytes line (budget - usedB) else []
        else line ++ waEvLoop budget pctChars rest (usedB + lb) usedC2

/-- The evidence loop of `_build_grounded_prompt` (ask_router): identical to
the wa loop except that the passage text is stripped before being measured. -/
def askEvLoop (budget pctChars : Nat) : List Passage → Nat → Nat → Str
  | [], _, _ => []
  | p :: rest, usedB, usedC =>
    let t := trimS p.text
    if t = [] then askEvLoop budget pctChars rest usedB usedC
    else
      let usedC2 := usedC + t.length
      if pctChars < usedC2 ∧ 0 < pctChars then []
      else
        let line := evidenceLine p t
        let lb := utf8Len line
        if budget < usedB + lb then
          if 0 < budget - usedB then truncBytes line (budget - usedB) else []
        else line ++ askEvLoop budget pctChars rest (usedB + lb) usedC2

/-- `_build_prompt` (wa_router).  `budget = max_bytes - len(qline)`; when it
is nonpositive the header plus question block is truncated directly; the
whole prompt is finally re-truncated to `maxBytes`. -/
def buildPromptWA (question lang : Str) (passages : List Passage)
    (percentCap maxBytes : Nat) : Str :=
  let header := waHeader
  let qline := qlineWA question lang
  let total0 := (passages.map (fun p => p.text.length)).sum
  let totalChars := if total0 = 0 then 1 else total0
  let pctChars := totalChars * (max 10 (min 100 percentCap)) / 100
  if maxBytes ≤ utf8Len qline then truncBytes (header ++ qline) maxBytes
  else
    truncBytes
      (header ++ waEvLoop (maxBytes - utf8Len qline) pctChars passages (utf8Len header) 0 ++ qline)
      maxBytes

/-- `_build_grounded_prompt` (ask_router).  The effective byte budget is
`max(1024, LLM_PROMPT_MAX_BYTES)` with the configured value a parameter. -/
def buildGroundedPrompt (question lang : Str) (passages : List Passage)
    (percentCap cfgMaxBytes : Nat) : Str :=
  let maxBytes := max 1024 cfgMaxBytes
  let header := askHeader
  let qline := qlineAsk question lang
  let total0 := (passages.map (fun p => p.text.length)).sum
  let totalChars := if total0 = 0 then 1 else total0
  let pctChars := totalChars * (max 10 (min 100 percentCap)) / 100
  if maxBytes ≤ utf8Len qline then truncBytes (header ++ qline) maxBytes
  else
    truncBytes
      (header ++ askEvLoop (maxBytes - utf8Len qline) pctChars passages (utf8Len header) 0 ++ qline)
      maxBytes

/-- If the first part alone overflows the budget, truncation never reaches
the second part. -/
theorem truncBytes_append_of_gt {l : Str} {n : Nat} (r : Str) (h : n < utf8Len l) :
    truncBytes (l ++ r) n = truncBytes l n := by
  induction l generalizing n with
  | nil => simp [utf8Len] at h
  | cons c cs ih =>
    rw [utf8Len_cons] at h
    by_cases hc : c.utf8Size ≤ n
    · simp only [List.cons_append, truncBytes, if_pos hc, List.append_eq]
      rw [ih (n := n - c.utf8Size) (by omega)]
    · simp [truncBytes, if_neg hc]

/-- The wa evidence loop never overruns the remaining byte budget. -/
theorem waEvLoop_le (budget pct : Nat) :
    ∀ (ps : List Passage) (usedB usedC : Nat), usedB ≤ budget →
      utf8Len (waEvLoop budget pct ps usedB usedC) + usedB ≤ budget := by
  intro ps
  induction ps with
  | nil => intro usedB usedC h; simpa [waEvLoop, utf8Len] using h
  | cons p rest ih =>
    intro usedB usedC h
    rw [waEvLoop]
    dsimp only
    split_ifs with h1 h2 h3 h4
    · exact ih usedB usedC h
    · simpa [utf8Len] using h
    · have := utf8Len_truncBytes_le (evidenceLine p (trimS p.text)) (budget - usedB)
      omega
    · simpa [utf8Len] using h
    · rw [utf8Len_append]
      have hfit : usedB + utf8Len (evidenceLine p (trimS p.text)) ≤ budget := by omega
      have := ih (usedB + utf8Len (evidenceLine p (trimS p.text)))
        (usedC + p.text.length) hfit
      omega

/-- The ask evidence loop never overruns the remaining byte budget. -/
theorem askEvLoop_le (budget pct : Nat) :
    ∀ (ps : List Passage) (usedB usedC : Nat), usedB ≤ budget →
      utf8Len (askEvLoop budget pct ps usedB usedC) + usedB ≤ budget := by
  intro ps
  induction ps with
  | nil => intro usedB usedC h; simpa [askEvLoop, utf8Len] using h
  | cons p rest ih =>
    intro usedB usedC h
    rw [askEvLoop]
    dsimp only
    split_ifs with h1 h2 h3 h4
    · exact ih usedB usedC h
    · simpa [utf8Len] using h
    · have := utf8Len_truncBytes_le (evidenceLine p (trimS p.text)) (budget - usedB)
      omega
    · simpa [utf8Len] using h
    · rw [utf8Len_append]
      have hfit : usedB + utf8Len (evidenceLine p (trimS p.text)) ≤ budget := by omega
      have := ih (usedB + utf8Len (evidenceLine p (trimS p.text)))
        (usedC + (trimS p.text).length) hfit
      omega

/-- The wa prompt always fits the byte budget. -/
theorem buildPromptWA_bytes_le (question lang : Str) (passages : List Passage)
    (percentCap maxBytes : Nat) :
    utf8Len (buildPromptWA question lang passages percentCap maxBytes) ≤ maxBytes := by
  rw [buildPromptWA]
  split_ifs <;> exact utf8Len_truncBytes_le _ _

/-- The ask prompt always fits the effective byte budget `max 1024 cfg`. -/
theorem buildGroundedPrompt_bytes_le (question lang : Str) (passages : List Passage)
    (percentCap cfgMaxBytes : Nat) :
    utf8Len (buildGroundedPrompt question lang passages percentCap cfgMaxBytes)
      ≤ max 1024 cfgMaxBytes := by
  rw [buildGroundedPrompt]
  split_ifs <;> exact utf8Len_truncBytes_le _ _

/-- When the header and the question block both fit, the wa prompt ends with
the question block. -/
theorem buildPromptWA_qline_suffix (question lang : Str) (passages : List Passage)
    (percentCap maxBytes : Nat)
    (h : utf8Len waHeader + utf8Len (qlineWA question lang) ≤ maxBytes) :
    qlineWA question lang <:+ buildPromptWA question lang passages percentCap maxBytes := by
  have hh : 0 < utf8Len waHeader := by decide
  have hq : ¬ maxBytes ≤ utf8Len (qlineWA question lang) := by omega
  rw [buildPromptWA]
  simp only [if_neg hq]
  set budget := maxBytes - utf8Len (qlineWA question lang) with hbudget
  set pct := (if (passages.map (fun p => p.text.length)).sum = 0 then 1
    else (passages.map (fun p => p.text.length)).sum) * (max 10 (min 100 percentCap)) / 100
  have hloop := waEvLoop_le budget pct passages (utf8Len waHeader) 0 (by omega)
  have hbody :
      utf8Len (waHeader ++ waEvLoop budget pct passages (utf8Len waHeader) 0
        ++ qlineWA question lang) ≤ maxBytes := by
    rw [utf8Len_append, utf8Len_append]
    omega
  rw [truncBytes_of_le hbody]
  exact ⟨waHeader ++ waEvLoop budget pct passages (utf8Len waHeader) 0, by simp⟩

/-- When the header and the question block both fit, the ask prompt ends with
the question block. -/
theorem buildGroundedPrompt_qline_suffix (question lang : Str) (passages : List Passage)
    (percentCap cfgMaxBytes : Nat)
    (h : utf8Len askHeader + utf8Len (qlineAsk question lang) ≤ max 1024 cfgMaxBytes) :
    qlineAsk question lang <:+
      buildGroundedPrompt question lang passages percentCap cfgMaxBytes := by
  have hh : 0 < utf8Len askHeader := by decide
  have hq : ¬ max 1024 cfgMaxBytes ≤ utf8Len (qlineAsk question lang) := by omega
  rw [buildGroundedPrompt]
  simp only [if_neg hq]
  set budget := max 1024 cfgMaxBytes - utf8Len (qlineAsk question lang) with hbudget
  set pct := (if (passages.map (fun p => p.text.length)).sum = 0 then 1
    else (passages.map (fun p => p.text.length)).sum) * (max 10 (min 100 percentCap)) / 100
  have hloop := askEvLoop_le budget pct passages (utf8Len askHeader) 0 (by omega)
  have hbody :
      utf8Len (askHeader ++ askEvLoop budget pct passages (utf8Len askHeader) 0
        ++ qlineAsk question lang) ≤ max 1024 cfgMaxBytes := by
    rw [utf8Len_append, utf8Len_append]
    omega
  rw [truncBytes_of_le hbody]
  exact ⟨askHeader ++ askEvLoop budget pct passages (utf8Len askHeader) 0, by simp⟩

/-- C1: the prompt always fits the byte budget (for `_build_prompt` its
`max_bytes` argument, for `_build_grounded_prompt` the effective budget
`max(1024, configured)`), and the question block is an intact suffix of the
prompt whenever the budget accommodates the header plus the question block.
This is the amended form of the claim: the unconditional header comes before
the evidence, so `max_bytes ≥` question-block bytes alone does not suffice. -/
theorem c1_prompt_cap_and_question_preservation
    (question lang : Str) (passages : List Passage) (percentCap maxBytes cfg : Nat) :
    utf8Len (buildPromptWA question lang passages percentCap maxBytes) ≤ maxBytes ∧
    utf8Len (buildGroundedPrompt question lang passages percentCap cfg) ≤ max 1024 cfg ∧
    (utf8Len waHeader + utf8Len (qlineWA question lang) ≤ maxBytes →
      qlineWA question lang <:+ buildPromptWA question lang passages percentCap maxBytes) ∧
    (utf8Len askHeader + utf8Len (qlineAsk question lang) ≤ max 1024 cfg →
      qlineAsk question lang <:+ buildGroundedPrompt question lang passages percentCap cfg) :=
  ⟨buildPromptWA_bytes_le question lang passages percentCap maxBytes,
   buildGroundedPrompt_bytes_le question lang passages percentCap cfg,
   buildPromptWA_qline_suffix question lang passages percentCap maxBytes,
   buildGroundedPrompt_qline_suffix question lang passages percentCap cfg⟩

/-- Witness for C1 at a concrete input: both headroom hypotheses hold and the
question block is a suffix of both prompts. -/
theorem c1_witness :
    (utf8Len waHeader + utf8Len (qlineWA (strL "Hi") (strL "en")) ≤ 1024 ∧
      utf8Len askHeader + utf8Len (qlineAsk (strL "Hi") (strL "en")) ≤ max 1024 0) ∧
    qlineWA (strL "Hi") (strL "en") <:+ buildPromptWA (strL "Hi") (strL "en") [] 60 1024 ∧
    qlineAsk (strL "Hi") (strL "en") <:+ buildGroundedPrompt (strL "Hi") (strL "en") [] 60 0 :=
  ⟨⟨by decide, by decide⟩,
   (c1_prompt_cap_and_question_preservation (strL "Hi") (strL "en") [] 60 1024 0).2.2.1
     (by decide),
   (c1_prompt_cap_and_question_preservation (strL "Hi") (strL "en") [] 60 1024 0).2.2.2
     (by decide)⟩

/-- Concrete 980-character question used to refute C1 as stated. -/
def cexC1Question : Str := List.replicate 980 'a'

/-- Counterexample to C1 as stated: with the wa builder at
`max_bytes = 1024` (the smallest effective budget the routers ever use) and a
980-character question, the question block is 1011 bytes — within
`max_bytes` — yet the final whole-prompt truncation cuts it off, because the
183-byte header is emitted unconditionally before it.  The prompt ends inside
the run of `'a'`s while the question block ends with `'.'`. -/
theorem c1_counterexample :
    utf8Len (qlineWA cexC1Question (strL "en")) ≤ 1024 ∧
    ¬ qlineWA cexC1Question (strL "en") <:+
        buildPromptWA cexC1Question (strL "en") [] 60 1024 := by
  have ha : ('a').utf8Size = 1 := by decide
  have hlangq : ¬ langLower (strL "en") = strL "hi" := by decide
  have hq : qlineWA cexC1Question (strL "en")
      = strL "\n\nQUESTION: " ++
          (List.replicate 980 'a' ++ (['\n'] ++ strL "Answer in English.")) := by
    rw [qlineWA, if_neg hlangq, cexC1Question]
    simp only [List.append_assoc]
  have hqlen : utf8Len (qlineWA cexC1Question (strL "en")) = 1011 := by
    rw [hq, utf8Len_append, utf8Len_append, utf8Len_replicate, ha]
    decide
  refine ⟨by omega, ?_⟩
  intro hsuf
  have hbuild : buildPromptWA cexC1Question (strL "en") [] 60 1024
      = waHeader ++ (strL "\n\nQUESTION: " ++ List.replicate 829 'a') := by
    rw [buildPromptWA]
    have hcond : ¬ (1024 ≤ utf8Len (qlineWA cexC1Question (strL "en"))) := by omega
    rw [if_neg hcond, waEvLoop]
    simp only [List.append_nil, List.nil_append]
    rw [truncBytes_append_of_le _ (by decide : utf8Len waHeader ≤ 1024)]
    have hhb : utf8Len waHeader = 183 := by decide
    rw [hhb, hq]
    rw [truncBytes_append_of_le _ (by decide : utf8Len (strL "\n\nQUESTION: ") ≤ 1024 - 183)]
    have h12 : utf8Len (strL "\n\nQUESTION: ") = 12 := by decide
    rw [h12]
    rw [truncBytes_append_of_gt _ (by rw [utf8Len_replicate, ha]; omega)]
    rw [truncBytes_replicate ha]
    norm_num
  rw [hbuild] at hsuf
  have hlast1 : (waHeader ++ (strL "\n\nQUESTION: " ++ List.replicate 829 'a')).getLast?
      = some 'a' := by
    have hsplit : waHeader ++ (strL "\n\nQUESTION: " ++ List.replicate 829 'a')
        = (waHeader ++ (strL "\n\nQUESTION: " ++ List.replicate 828 'a')) ++ ['a'] := by
      rw [show (829 : Nat) = 828 + 1 from rfl, List.replicate_succ']
      simp only [List.append_assoc]
    rw [hsplit, List.getLast?_concat]
  have hqne : qlineWA cexC1Question (strL "en") ≠ [] := by
    rw [hq]
    simp
  have hlast2 := getLast?_of_suffix hqne hsuf
  have hlast3 : (qlineWA cexC1Question (strL "en")).getLast? = some '.' := by
    rw [hq, List.getLast?_append, List.getLast?_append, List.getLast?_append]
    decide
  rw [hlast1, hlast3] at hlast2
  exact absurd (Option.some.inj hlast2) (by decide)

/-- Byte-truncation returns a leading part of the string. -/
theorem truncBytes_leading (s : Str) (n : Nat) : truncBytes s n <+: s := by
  induction s generalizing n with
  | nil => simp [truncBytes]
  | cons c cs ih =>
    by_cases h : c.utf8Size ≤ n
    · simp only [truncBytes, if_pos h]
      obtain ⟨t, ht⟩ := ih (n - c.utf8Size)
      exact ⟨t, by rw [List.cons_append, ht]⟩
    · simp [truncBytes, if_neg h]

/-- Every prompt the retry loop posts is drawn from the per-factor
re-truncations of the (hinted) original prompt, in factor order. -/
theorem chatGo_sent_leading (oracle : Str → GwOut) (hinted : Str) :
    ∀ (fs : List Factor) (lastErr : Option Str) (acc : List Str),
      (chatGo oracle hinted fs lastErr acc).sent <+: acc ++ fs.map (cappedTry hinted) := by
  intro fs
  induction fs with
  | nil => intro lastErr acc; simp [chatGo]
  | cons f rest ih =>
    intro lastErr acc
    rw [chatGo]
    cases horacle : oracle (cappedTry hinted f) with
    | transport msg =>
      simp only [List.map_cons]
      exact ⟨rest.map (cappedTry hinted), by simp⟩
    | resp s b =>
      by_cases h2 : 200 ≤ s ∧ s < 300
      · simp only [if_pos h2, List.map_cons]
        exact ⟨rest.map (cappedTry hinted), by simp⟩
      · simp only [if_neg h2]
        by_cases h3 : s = 400 ∧ isContextSizeError b ∧ rest ≠ []
        · simp only [if_pos h3, List.map_cons]
          have := ih (some (httpErr s)) (acc ++ [cappedTry hinted f])
          simpa [List.append_assoc] using this
        · simp only [if_neg h3, List.map_cons]
          exact ⟨rest.map (cappedTry hinted), by simp⟩

/-- C8 (amended): (1) the prompts posted by the shrink-retry loop are the
per-factor re-truncations of the original hinted prompt, in order — each
attempt re-truncates the *original*, never the previous attempt's output;
(2) at the default configuration the per-attempt `(byte cap, tail)` pairs are
`max(1500, ⌊9000·f⌋)` and `max(600, min(2200, ⌊cap·0.35⌋))`, i.e.
`[(9000,2200), (6300,2200), (4500,1575), (3150,1102), (2250,787)]`;
(3) when the prompt overflows the cap, the result is the byte-head of the
original, the elision marker, and a *leading part* of the last `tail` bytes of
the original — the final re-truncation to the cap displaces the marker's five
bytes, so the tail is not kept verbatim to its end (the claim's "tail kept
verbatim" fails; see the counterexample). -/
theorem c8_shrink_attempt_structure :
    (∀ (oracle : Str → GwOut) (prompt : Str),
      (chatModel oracle prompt).sent <+: shrinkFactors.map (cappedTry (applyHints prompt))) ∧
    (shrinkFactors.map (fun f =>
        if f.num < f.den then (capOfFactor f, tailOfFactor f)
        else (promptMaxBytes, promptTailBytes))
      = [(9000, 2200), (6300, 2200), (4500, 1575), (3150, 1102), (2250, 787)]) ∧
    (∀ (prompt : Str) (cap tailB : Nat), cap < utf8Len prompt →
      5 ≤ min tailB (cap / 2) →
      ∃ tailKept, tailKept <+: suffixBytes prompt (min tailB (cap / 2)) ∧
        capPromptBytesKeepTail prompt cap tailB
          = truncBytes prompt (cap - min tailB (cap / 2)) ++ elisionMarker ++ tailKept ∧
        utf8Len (capPromptBytesKeepTail prompt cap tailB) ≤ cap) := by
  refine ⟨?_, by decide, ?_⟩
  · intro oracle prompt
    simpa using chatGo_sent_leading oracle (applyHints prompt) shrinkFactors none []
  · intro prompt cap tailB hover h5
    have hnle : ¬ utf8Len prompt ≤ cap := by omega
    have htne : ¬ min tailB (cap / 2) = 0 := by omega
    have hres : capPromptBytesKeepTail prompt cap tailB
        = truncBytes
            ((truncBytes prompt (cap - min tailB (cap / 2)) ++ elisionMarker)
              ++ suffixBytes prompt (min tailB (cap / 2))) cap := by
      rw [capPromptBytesKeepTail, if_neg hnle]
      dsimp only
      rw [if_neg htne]
    have hhead : utf8Len (truncBytes prompt (cap - min tailB (cap / 2)) ++ elisionMarker) ≤ cap := by
      rw [utf8Len_append]
      have h1 := utf8Len_truncBytes_le prompt (cap - min tailB (cap / 2))
      have h2 : utf8Len elisionMarker = 5 := by decide
      omega
    refine ⟨truncBytes (suffixBytes prompt (min tailB (cap / 2)))
        (cap - utf8Len (truncBytes prompt (cap - min tailB (cap / 2)) ++ elisionMarker)),
      truncBytes_leading _ _, ?_, ?_⟩
    · rw [hres, truncBytes_append_of_le _ hhead]
    · rw [hres]
      exact utf8Len_truncBytes_le _ _

/-- Witness for C8 at a concrete input: a 9001-byte prompt over the 9000-byte
cap decomposes into head, marker, and a leading part of its byte-tail. -/
theorem c8_witness :
    (9000 < utf8Len (List.replicate 9001 'a') ∧ 5 ≤ min 2200 (9000 / 2)) ∧
    ∃ tailKept, tailKept <+: suffixBytes (List.replicate 9001 'a') (min 2200 (9000 / 2)) ∧
      capPromptBytesKeepTail (List.replicate 9001 'a') 9000 2200
        = truncBytes (List.replicate 9001 'a') (9000 - min 2200 (9000 / 2))
            ++ elisionMarker ++ tailKept ∧
      utf8Len (capPromptBytesKeepTail (List.replicate 9001 'a') 9000 2200) ≤ 9000 :=
  ⟨⟨by rw [utf8Len_replicate]; decide, by decide⟩,
   c8_shrink_attempt_structure.2.2 (List.replicate 9001 'a') 9000 2200
     (by rw [utf8Len_replicate]; decide) (by decide)⟩

/-- Counterexample to C8 as stated: at the first attempt's parameters
(cap 9000, tail 2200) and a 9005-byte prompt, the last 2200 bytes of the
original are all `'a'`, but the capped result does *not* end with those 2200
bytes: the elision marker's five bytes push the tail's final five bytes past
the cap, so the result ends with only 2195 of them, the marker sitting where
the claimed verbatim tail would have to start. -/
theorem c8_counterexample :
    suffixBytes (List.replicate 9005 'a') promptTailBytes = List.replicate 2200 'a' ∧
    ¬ List.replicate 2200 'a' <:+
        capPromptBytesKeepTail (List.replicate 9005 'a') promptMaxBytes promptTailBytes := by
  have ha : ('a').utf8Size = 1 := by decide
  have hsuffix : suffixBytes (List.replicate 9005 'a') promptTailBytes
      = List.replicate 2200 'a' := by
    rw [promptTailBytes, suffixBytes_replicate ha]
    norm_num
  refine ⟨hsuffix, ?_⟩
  have hlen : utf8Len (List.replicate 9005 'a') = 9005 := by
    rw [utf8Len_replicate, ha]
  have hres : capPromptBytesKeepTail (List.replicate 9005 'a') promptMaxBytes promptTailBytes
      = (List.replicate 6800 'a' ++ elisionMarker) ++ List.replicate 2195 'a' := by
    rw [capPromptBytesKeepTail, promptMaxBytes, promptTailBytes,
      if_neg (by rw [hlen]; decide)]
    dsimp only
    have h1 : (2200 : Nat) ⊓ (9000 / 2) = 2200 := by decide
    rw [h1, if_neg (by decide : ¬ (2200 : Nat) = 0)]
    have h2 : (9000 : Nat) - 2200 = 6800 := by decide
    rw [h2, truncBytes_replicate ha, suffixBytes_replicate ha]
    have h3 : min 9005 6800 = 6800 := by decide
    have h4 : min 9005 2200 = 2200 := by decide
    rw [h3, h4]
    have h5 : utf8Len (List.replicate 6800 'a' ++ elisionMarker) = 6805 := by
      rw [utf8Len_append, utf8Len_replicate, ha]; decide
    rw [truncBytes_append_of_le _ (by rw [h5]; decide), h5, truncBytes_replicate ha]
    norm_num
  rw [hres]
  intro hsuf
  obtain ⟨t, ht⟩ := hsuf
  have hlent : t.length = 6798 := by
    have hlength := congrArg List.length ht
    simp only [List.length_append, List.length_replicate] at hlength
    have hm : elisionMarker.length = 3 := by decide
    omega
  have hlenA : (List.replicate 6800 'a').length = 6800 := by
    rw [List.length_replicate]
  have hlenB : (List.replicate 6800 'a' ++ elisionMarker).length = 6803 := by
    rw [List.length_append, hlenA]
    rfl
  have hidx1 : ((List.replicate 6800 'a' ++ elisionMarker) ++ List.replicate 2195 'a')[6800]?
      = some '\n' := by
    rw [List.getElem?_append, if_pos (by rw [hlenB]; decide)]
    rw [List.getElem?_append, if_neg (by rw [hlenA]; decide), hlenA]
    rfl
  have hidx2 : (t ++ List.replicate 2200 'a')[6800]? = some 'a' := by
    rw [List.getElem?_append, if_neg (by rw [hlent]; decide), hlent]
    rw [List.getElem?_replicate]
    norm_num
  rw [ht, hidx1] at hidx2
  exact absurd (Option.some.inj hidx2) (by decide)

/-- C2 (amended): classification of one attempt and of the exhausted loop.
(1) A transport-level exception at the first attempt fails immediately with
that message, after a single gateway call.  (2) A non-2xx response that is not
a 400 with a context-size body fails immediately with `"HTTP {status}"`,
after a single call.  (3) A 400 with a context-size body at the first attempt
advances to the remaining factors (with `last_err = "HTTP 400"`).  (4) When
every attempt draws a 400 context-size response, all five factors are posted
and the failure carries reason `"HTTP 400"` — not `"context_too_large"`,
whose return statement is unreachable because the last factor's handler
returns directly (see the counterexample). -/
theorem c2_outcome_classification :
    (∀ (oracle : Str → GwOut) (prompt msg : Str),
      oracle (cappedTry (applyHints prompt) ⟨1, 1⟩) = .transport msg →
        chatModel oracle prompt
          = ⟨[], some msg, [cappedTry (applyHints prompt) ⟨1, 1⟩]⟩) ∧
    (∀ (oracle : Str → GwOut) (prompt : Str) (s : Nat) (b : Str),
      oracle (cappedTry (applyHints prompt) ⟨1, 1⟩) = .resp s b →
      ¬ (200 ≤ s ∧ s < 300) → ¬ (s = 400 ∧ isContextSizeError b) →
        chatModel oracle prompt
          = ⟨[], some (httpErr s), [cappedTry (applyHints prompt) ⟨1, 1⟩]⟩) ∧
    (∀ (oracle : Str → GwOut) (prompt b : Str),
      oracle (cappedTry (applyHints prompt) ⟨1, 1⟩) = .resp 400 b →
      isContextSizeError b →
        chatModel oracle prompt
          = chatGo oracle (applyHints prompt) [⟨7, 10⟩, ⟨1, 2⟩, ⟨7, 20⟩, ⟨1, 4⟩]
              (some (httpErr 400)) [cappedTry (applyHints prompt) ⟨1, 1⟩]) ∧
    (∀ (oracle : Str → GwOut) (prompt : Str),
      (∀ p, oracle p = .resp 400 (strL "context size exceeded")) →
        chatModel oracle prompt
          = ⟨[], some (httpErr 400), shrinkFactors.map (cappedTry (applyHints prompt))⟩) := by
  have h2xx400 : ¬ (200 ≤ 400 ∧ 400 < 300) := by decide
  have hctx : isContextSizeError (strL "context size exceeded") = true := by decide
  refine ⟨?_, ?_, ?_, ?_⟩
  · intro oracle prompt msg hor
    rw [chatModel, shrinkFactors, chatGo, hor]
    simp
  · intro oracle prompt s b hor hs hnotctx
    rw [chatModel, shrinkFactors, chatGo, hor]
    dsimp only
    rw [if_neg hs, if_neg (fun hcontra => hnotctx ⟨hcontra.1, hcontra.2.1⟩)]
    simp
  · intro oracle prompt b hor hb
    rw [chatModel, shrinkFactors, chatGo, hor]
    dsimp only
    rw [if_neg h2xx400, if_pos ⟨rfl, hb, by decide⟩]
    simp
  · intro oracle prompt hall
    rw [chatModel, shrinkFactors]
    rw [chatGo, hall]
    dsimp only
    rw [if_neg h2xx400, if_pos ⟨rfl, hctx, by decide⟩]
    rw [chatGo, hall]
    dsimp only
    rw [if_neg h2xx400, if_pos ⟨rfl, hctx, by decide⟩]
    rw [chatGo, hall]
    dsimp only
    rw [if_neg h2xx400, if_pos ⟨rfl, hctx, by decide⟩]
    rw [chatGo, hall]
    dsimp only
    rw [if_neg h2xx400, if_pos ⟨rfl, hctx, by decide⟩]
    rw [chatGo, hall]
    dsimp only
    rw [if_neg h2xx400, if_neg (by decide :
      ¬ ((400 : Nat) = 400 ∧ isContextSizeError (strL "context size exceeded") = true ∧
        ([] : List Factor) ≠ []))]
    simp [List.append_assoc]

/-- Witness for C2: a transport failure at the first attempt is returned
immediately, with exactly one gateway call made. -/
theorem c2_witness :
    ((fun _ => GwOut.transport (strL "boom")) (cappedTry (applyHints (strL "q")) ⟨1, 1⟩)
        = GwOut.transport (strL "boom")) ∧
    chatModel (fun _ => GwOut.transport (strL "boom")) (strL "q")
      = ⟨[], some (strL "boom"), [cappedTry (applyHints (strL "q")) ⟨1, 1⟩]⟩ :=
  ⟨rfl,
   c2_outcome_classification.1 (fun _ => GwOut.transport (strL "boom")) (strL "q")
     (strL "boom") rfl⟩

/-- Counterexample to C2 as stated: against a gateway that answers HTTP 400
with a context-size body on every call — so no transport error ever occurs —
all five factors are exhausted and the returned failure carries reason
`"HTTP 400"`, not `"context_too_large"` (that return is dead code: the last
factor's handler returns first). -/
theorem c2_counterexample :
    chatModel (fun _ => GwOut.resp 400 (strL "context size exceeded")) (strL "q")
      = ⟨[], some (strL "HTTP 400"), List.replicate 5 (strL "q")⟩ ∧
    strL "HTTP 400" ≠ strL "context_too_large" := by
  constructor
  · decide
  · decide

/-- The simulated gateway of C3: HTTP 400 with a context-size body whenever
the posted prompt exceeds `T` bytes, HTTP 200 with body `okBody` otherwise. -/
def thresholdOracle (T : Nat) (okBody : Str) : Str → GwOut :=
  fun p =>
    if T < utf8Len p then GwOut.resp 400 (strL "context size exceeded")
    else GwOut.resp 200 okBody

/-- Running the retry loop against the threshold gateway: if no factor's
capped prompt fits, the loop fails with `"HTTP 400"` after posting every
factor's prompt; otherwise it succeeds at the first fitting factor. -/
theorem chatGo_threshold (T : Nat) (okBody hinted : Str) :
    ∀ (fs : List Factor) (lastErr : Option Str) (acc : List Str), fs ≠ [] →
      ((fs.find? (fun g => decide (utf8Len (cappedTry hinted g) ≤ T)) = none →
        chatGo (thresholdOracle T okBody) hinted fs lastErr acc
          = ⟨[], some (httpErr 400), acc ++ fs.map (cappedTry hinted)⟩) ∧
       (∀ f, fs.find? (fun g => decide (utf8Len (cappedTry hinted g) ≤ T)) = some f →
        (chatGo (thresholdOracle T okBody) hinted fs lastErr acc).reply = trimS okBody ∧
        (chatGo (thresholdOracle T okBody) hinted fs lastErr acc).error = none ∧
        (chatGo (thresholdOracle T okBody) hinted fs lastErr acc).sent.getLast?
          = some (cappedTry hinted f))) := by
  have hctx : isContextSizeError (strL "context size exceeded") = true := by decide
  have h2xx400 : ¬ (200 ≤ 400 ∧ 400 < 300) := by decide
  intro fs
  induction fs with
  | nil => intro lastErr acc hne; exact absurd rfl hne
  | cons f rest ih =>
    intro lastErr acc _
    by_cases hg : utf8Len (cappedTry hinted f) ≤ T
    · have horacle : thresholdOracle T okBody (cappedTry hinted f) = GwOut.resp 200 okBody := by
        rw [thresholdOracle, if_neg (by omega)]
      have hfind : (f :: rest).find? (fun g => decide (utf8Len (cappedTry hinted g) ≤ T))
          = some f := by
        rw [List.find?_cons_of_pos]
        simpa using hg
      constructor
      · intro hnone
        rw [hfind] at hnone
        exact absurd hnone (by simp)
      · intro f0 hsome
        rw [hfind] at hsome
        obtain rfl : f = f0 := by simpa using hsome
        rw [chatGo, horacle]
        dsimp only
        rw [if_pos (by decide : 200 ≤ 200 ∧ 200 < 300)]
        refine ⟨rfl, rfl, ?_⟩
        simp [extractText]
    · have horacle : thresholdOracle T okBody (cappedTry hinted f)
          = GwOut.resp 400 (strL "context size exceeded") := by
        rw [thresholdOracle, if_pos (by omega)]
      have hfind : (f :: rest).find? (fun g => decide (utf8Len (cappedTry hinted g) ≤ T))
          = rest.find? (fun g => decide (utf8Len (cappedTry hinted g) ≤ T)) := by
        rw [List.find?_cons_of_neg]
        simpa using hg
      rcases List.eq_nil_or_concat rest with hrest | ⟨_, _, hform⟩
      · subst hrest
        constructor
        · intro _
          rw [chatGo, horacle]
          dsimp only
          rw [if_neg h2xx400, if_neg (by simp)]
          simp
        · intro f0 hsome
          rw [hfind] at hsome
          simp at hsome
      · have hrestne : rest ≠ [] := by
          rw [hform]; simp
        have hstep : chatGo (thresholdOracle T okBody) hinted (f :: rest) lastErr acc
            = chatGo (thresholdOracle T okBody) hinted rest (some (httpErr 400))
                (acc ++ [cappedTry hinted f]) := by
          rw [chatGo, horacle]
          dsimp only
          rw [if_neg h2xx400, if_pos ⟨rfl, hctx, hrestne⟩]
        have hih := ih (some (httpErr 400)) (acc ++ [cappedTry hinted f]) hrestne
        constructor
        · intro hnone
          rw [hfind] at hnone
          rw [hstep, hih.1 hnone]
          simp [List.append_assoc]
        · intro f0 hsome
          rw [hfind] at hsome
          rw [hstep]
          exact hih.2 f0 hsome

/-- C3: against the threshold gateway (HTTP 400 "context size" above `T`
bytes, HTTP 200 with non-blank text otherwise), `chat` succeeds exactly when
some factor's capped prompt fits in `T` bytes; the successful attempt is the
*first* fitting factor in `[1.0, 0.7, 0.5, 0.35, 0.25]` (its prompt is the
last one posted, and the reply is the gateway text); with no fitting factor
every factor is posted and the call fails. -/
theorem c3_threshold_gateway (hinted okBody : Str) (T : Nat) (hok : trimS okBody ≠ []) :
    ((chatModel (thresholdOracle T okBody) hinted).error = none ↔
      ∃ f ∈ shrinkFactors, utf8Len (cappedTry hinted f) ≤ T) ∧
    (∀ f, shrinkFactors.find? (fun g => decide (utf8Len (cappedTry hinted g) ≤ T)) = some f →
      (chatModel (thresholdOracle T okBody) hinted).reply = trimS okBody ∧
      (chatModel (thresholdOracle T okBody) hinted).reply ≠ [] ∧
      (chatModel (thresholdOracle T okBody) hinted).error = none ∧
      (chatModel (thresholdOracle T okBody) hinted).sent.getLast?
        = some (cappedTry hinted f)) ∧
    (shrinkFactors.find? (fun g => decide (utf8Len (cappedTry hinted g) ≤ T)) = none →
      chatModel (thresholdOracle T okBody) hinted
        = ⟨[], some (httpErr 400), shrinkFactors.map (cappedTry hinted)⟩) := by
  have hbase := chatGo_threshold T okBody hinted shrinkFactors none [] (by decide)
  have hmodel : chatModel (thresholdOracle T okBody) hinted
      = chatGo (thresholdOracle T okBody) hinted shrinkFactors none [] := rfl
  refine ⟨?_, ?_, ?_⟩
  · constructor
    · intro herr
      by_contra hnone
      push_neg at hnone
      have hfind : shrinkFactors.find? (fun g => decide (utf8Len (cappedTry hinted g) ≤ T))
          = none := by
        rw [List.find?_eq_none]
        intro x hx
        simpa using hnone x hx
      have := hbase.1 hfind
      rw [hmodel, this] at herr
      simp at herr
    · intro ⟨f, hf, hle⟩
      have hfind : (shrinkFactors.find?
          (fun g => decide (utf8Len (cappedTry hinted g) ≤ T))).isSome := by
        rw [List.find?_isSome]
        exact ⟨f, hf, by simpa using hle⟩
      obtain ⟨f0, hf0⟩ := Option.isSome_iff_exists.mp hfind
      rw [hmodel]
      exact (hbase.2 f0 hf0).2.1
  · intro f hsome
    have hres := hbase.2 f hsome
    rw [hmodel]
    refine ⟨hres.1, ?_, hres.2.1, hres.2.2⟩
    rw [hres.1]
    exact hok
  · intro hnone
    have := hbase.1 hnone
    rw [hmodel, this]
    simp

/-- Witness for C3 at a concrete input: with a large threshold the very first
factor fits, the reply is the trimmed gateway text, and no error is set. -/
theorem c3_witness :
    (trimS (strL "ok") ≠ [] ∧
      shrinkFactors.find?
        (fun g => decide (utf8Len (cappedTry (strL "q") g) ≤ 10000)) = some ⟨1, 1⟩) ∧
    (chatModel (thresholdOracle 10000 (strL "ok")) (strL "q")).reply = trimS (strL "ok") ∧
    (chatModel (thresholdOracle 10000 (strL "ok")) (strL "q")).error = none :=
  ⟨⟨by decide, by decide⟩,
   ((c3_threshold_gateway (strL "q") (strL "ok") 10000 (by decide)).2.1 ⟨1, 1⟩ (by decide)).1,
   ((c3_threshold_gateway (strL "q") (strL "ok") 10000 (by decide)).2.1 ⟨1, 1⟩
     (by decide)).2.2.1⟩

/-!
## Character soft cap (C7)

`charSelect` is the character-accumulation decision of the builders' evidence
loop (ask variant: stripped text), `byteAccum` the byte-rendering part;
`askEvLoop_factor` proves the builder loop is their composition.
`_cap_passages` (answerer) is the third soft-cap site; its budget is
`int(9000 * clamp(pct,10,100) / 100)` characters, an exact integer.
-/

/-- The passages admitted by the character soft cap of
`_build_grounded_prompt`: skip falsy (stripped-empty) texts, accumulate
stripped lengths, and stop *before* the passage that pushes the running
total over `pct` (when `pct > 0`). -/
def charSelect (pct : Nat) : List Passage → Nat → List Passage
  | [], _ => []
  | p :: rest, usedC =>
    let t := trimS p.text
    if t = [] then charSelect pct rest usedC
    else
      let usedC2 := usedC + t.length
      if pct < usedC2 ∧ 0 < pct then []
      else p :: charSelect pct rest usedC2

/-- The byte-cap rendering of the admitted passages (ask variant). -/
def byteAccum (budget : Nat) : List Passage → Nat → Str
  | [], _ => []
  | p :: rest, usedB =>
    let line := evidenceLine p (trimS p.text)
    let lb := utf8Len line
    if budget < usedB + lb then
      if 0 < budget - usedB then truncBytes line (budget - usedB) else []
    else line ++ byteAccum budget rest (usedB + lb)

/-- The builder's evidence loop is the byte rendering of the char-cap
selection: the two truncation passes factor. -/
theorem askEvLoop_factor (budget pct : Nat) :
    ∀ (ps : List Passage) (usedB usedC : Nat),
      askEvLoop budget pct ps usedB usedC
        = byteAccum budget (charSelect pct ps usedC) usedB := by
  intro ps
  induction ps with
  | nil => intro usedB usedC; rfl
  | cons p rest ih =>
    intro usedB usedC
    rw [askEvLoop, charSelect]
    dsimp only
    by_cases h1 : trimS p.text = []
    · rw [if_pos h1, if_pos h1, ih]
    · rw [if_neg h1, if_neg h1]
      by_cases h2 : pct < usedC + (trimS p.text).length ∧ 0 < pct
      · rw [if_pos h2, if_pos h2]
        rfl
      · rw [if_neg h2, if_neg h2, byteAccum]
        by_cases h3 : budget < usedB + utf8Len (evidenceLine p (trimS p.text))
        · rw [if_pos h3, if_pos h3]
        · rw [if_neg h3, if_neg h3, ih]

/-- Passages with truthy (non-empty after strip) text, in order. -/
def nonemptyOnes (ps : List Passage) : List Passage :=
  ps.filter (fun p => decide (trimS p.text ≠ []))

/-- Total stripped characters of a passage list. -/
def charSum (ps : List Passage) : Nat := (ps.map (fun p => (trimS p.text).length)).sum

/-- The char soft cap keeps exactly the longest prefix of the truthy-text
passages whose cumulative stripped length fits the budget. -/
theorem charSelect_spec (pct : Nat) :
    ∀ (ps : List Passage) (usedC : Nat), usedC ≤ pct → 0 < pct →
      charSelect pct ps usedC <+: nonemptyOnes ps ∧
      usedC + charSum (charSelect pct ps usedC) ≤ pct ∧
      (∀ pre, pre <+: nonemptyOnes ps → usedC + charSum pre ≤ pct →
        pre.length ≤ (charSelect pct ps usedC).length) := by
  intro ps
  induction ps with
  | nil =>
    intro usedC hus hpos
    refine ⟨List.nil_prefix, by simpa [charSum] using hus, ?_⟩
    intro pre hpre _
    have : pre = [] := List.prefix_nil.mp (by simpa [nonemptyOnes] using hpre)
    simp [this, charSelect]
  | cons p rest ih =>
    intro usedC hus hpos
    by_cases h1 : trimS p.text = []
    · have hne : nonemptyOnes (p :: rest) = nonemptyOnes rest := by
        simp [nonemptyOnes, List.filter_cons, h1]
      rw [charSelect, if_pos h1, hne]
      exact ih usedC hus hpos
    · have hne : nonemptyOnes (p :: rest) = p :: nonemptyOnes rest := by
        simp [nonemptyOnes, List.filter_cons, h1]
      rw [charSelect, if_neg h1, hne]
      by_cases h2 : pct < usedC + (trimS p.text).length ∧ 0 < pct
      · rw [if_pos h2]
        refine ⟨List.nil_prefix, by simpa [charSum] using hus, ?_⟩
        intro pre hpre hsum
        match pre, hpre with
        | [], _ => simp
        | q :: pre', hpre =>
          obtain ⟨hq, _⟩ := List.cons_prefix_cons.mp hpre
          subst hq
          rw [charSum] at hsum
          simp only [List.map_cons, List.sum_cons] at hsum
          omega
      · rw [if_neg h2]
        have hfit : usedC + (trimS p.text).length ≤ pct := by
          rcases Nat.lt_or_ge pct (usedC + (trimS p.text).length) with hlt | hge
          · exact absurd ⟨hlt, hpos⟩ h2
          · exact hge
        obtain ⟨hpre, hsum, hmax⟩ := ih (usedC + (trimS p.text).length) hfit hpos
        refine ⟨List.cons_prefix_cons.mpr ⟨rfl, hpre⟩, ?_, ?_⟩
        · rw [charSum] at hsum ⊢
          simp only [List.map_cons, List.sum_cons]
          omega
        · intro pre hpre2 hsum2
          match pre, hpre2 with
          | [], _ => simp
          | q :: pre', hpre2 =>
            obtain ⟨hq, hpre'⟩ := List.cons_prefix_cons.mp hpre2
            subst hq
            rw [charSum] at hsum2
            simp only [List.map_cons, List.sum_cons] at hsum2
            have := hmax pre' hpre' (by rw [charSum]; omega)
            simp only [List.length_cons]
            omega

/-- `_cap_passages` (answerer) loop body: `rem = budget - used`; stop when no
budget remains; a passage longer than the remainder is kept once, its text
truncated to `max(200, rem)` characters, and the loop ends; otherwise the
passage is kept whole. -/
def capPassagesGo (budget : Nat) : List Passage → Nat → List Passage
  | [], _ => []
  | p :: rest, used =>
    if budget - used = 0 then []
    else if budget - used < p.text.length then
      [{ p with text := p.text.take (max 200 (budget - used)) }]
    else p :: capPassagesGo budget rest (used + p.text.length)

/-- `_cap_passages`: budget = `int(9000 * max(10, min(percent_cap, 100)) / 100)`
characters (an exact integer, `90 * clamp`). -/
def capPassages (passages : List Passage) (percentCap : Nat) : List Passage :=
  capPassagesGo (9000 * (max 10 (min percentCap 100)) / 100) passages 0

/-- Modelled from the spec's words (C7), for comparison with the code: the
character soft cap "accumulates passages in order, the passage that crosses
the threshold is still included once, then stop". -/
def specSoftCapKeep (budget : Nat) : List Str → Nat → List Str
  | [], _ => []
  | t :: rest, used =>
    let used2 := used + t.length
    if budget < used2 then [t]
    else t :: specSoftCapKeep budget rest used2

/-- C7 (amended): (1) the builders' evidence loop factors into the character
soft cap followed by the byte cap; (2) for a positive character budget the
soft cap keeps exactly the longest prefix of the truthy-text passages whose
cumulative stripped length is at most the budget — the passage that would
cross the threshold is *excluded* (its characters still count toward the
running total), and nothing after it is included; (3) the answerer's
`_cap_passages` differs: its budget is `90·clamp(percent_cap,10,100)`
characters (not a fraction of the total), and a first passage longer than the
whole budget *is* kept once, truncated to `max(200, budget)` characters. -/
theorem c7_soft_cap_characterization :
    (∀ (budget pct : Nat) (ps : List Passage) (usedB usedC : Nat),
      askEvLoop budget pct ps usedB usedC
        = byteAccum budget (charSelect pct ps usedC) usedB) ∧
    (∀ (pct : Nat) (ps : List Passage), 0 < pct →
      charSelect pct ps 0 <+: nonemptyOnes ps ∧
      charSum (charSelect pct ps 0) ≤ pct ∧
      (∀ pre, pre <+: nonemptyOnes ps → charSum pre ≤ pct →
        pre.length ≤ (charSelect pct ps 0).length)) ∧
    (∀ (p : Passage) (rest : List Passage) (pct : Nat),
      9000 * (max 10 (min pct 100)) / 100 < p.text.length →
      capPassages (p :: rest) pct
        = [{ p with text := p.text.take (max 200 (9000 * (max 10 (min pct 100)) / 100)) }]) := by
  refine ⟨askEvLoop_factor, ?_, ?_⟩
  · intro pct ps hpos
    have h := charSelect_spec pct ps 0 (by omega) hpos
    exact ⟨h.1, by simpa using h.2.1, fun pre hp hs => h.2.2 pre hp (by simpa using hs)⟩
  · intro p rest pct hlong
    have hpos : 900 ≤ 9000 * (max 10 (min pct 100)) / 100 := by
      have h10 : 10 ≤ max 10 (min pct 100) := le_max_left _ _
      calc 900 = 9000 * 10 / 100 := by decide
        _ ≤ 9000 * (max 10 (min pct 100)) / 100 := by
            apply Nat.div_le_div_right
            exact Nat.mul_le_mul_left _ h10
    rw [capPassages, capPassagesGo]
    rw [if_neg (by omega), if_pos (by omega), Nat.sub_zero]

/-- Witness for C7 at a concrete input: with budget 3 the soft cap keeps only
the first passage (the second would cross), and a long first passage is kept
truncated by `_cap_passages`. -/
theorem c7_witness :
    ((0 : Nat) < 3 ∧
      charSelect 3 [⟨strL "d", 0, strL "ab", 0⟩, ⟨strL "d", 1, strL "cd", 0⟩] 0
        = [⟨strL "d", 0, strL "ab", 0⟩] ∧
      charSum [⟨strL "d", 0, strL "ab", 0⟩] ≤ 3) ∧
    (9000 * (max 10 (min 10 100)) / 100
        < (List.replicate 1000 'x').length ∧
      capPassages [⟨strL "d", 0, List.replicate 1000 'x', 0⟩] 10
        = [⟨strL "d", 0, (List.replicate 1000 'x').take
            (max 200 (9000 * (max 10 (min 10 100)) / 100)), 0⟩]) :=
  ⟨⟨by decide, by decide, by decide⟩,
   ⟨by simp,
    c7_soft_cap_characterization.2.2 ⟨strL "d", 0, List.replicate 1000 'x', 0⟩ [] 10
      (by simp)⟩⟩

/-- Counterexample to C7 as stated: two 4-character passages at
`percent_cap = 50` give a character budget of 4; the spec-worded cap keeps the
crossing second passage, but the code excludes it — its text does not appear
in the built prompt at all. -/
theorem c7_counterexample :
    specSoftCapKeep 4 [strL "aaaa", strL "bbbb"] 0 = [strL "aaaa", strL "bbbb"] ∧
    charSelect 4 [⟨strL "d1", 0, strL "aaaa", 0⟩, ⟨strL "d2", 0, strL "bbbb", 0⟩] 0
      = [⟨strL "d1", 0, strL "aaaa", 0⟩] ∧
    ¬ strL "bbbb" <:+:
        buildGroundedPrompt (strL "q") (strL "en")
          [⟨strL "d1", 0, strL "aaaa", 0⟩, ⟨strL "d2", 0, strL "bbbb", 0⟩] 50 12000 := by
  refine ⟨by decide, by decide, by decide⟩

/-!
## `Ask/be/services/answerer.py`

Environment toggles are parameters where they change control flow
(`ASK_USE_LLM`, availability of `call_llm`); `ASK_SHOW_SOURCES` is fixed at
its default `false`, so `_postprocess_wa` never appends a sources line.
`call_llm` plus the multi-shape reply probing is abstracted into `LlmCall`:
either an extracted reply string, or any raised exception.
`str.splitlines` is modelled as splitting on `'\n'` (the only newline the
pipeline produces); a trailing empty segment is filtered out right after,
exactly as the source drops falsy lines.  `round(x, 2)` in `_confidence` is
the identity on the exact values `0.50 … 0.90` the formula produces, so the
model uses exact rationals.
-/

/-- Python `str.rstrip()`. -/
def rstripS (s : Str) : Str := (s.reverse.dropWhile Char.isWhitespace).reverse

/-- The leading-character repair table of `_fix_leading_trunc`. -/
def leadingFixes : List (Str × Str) :=
  [(strL "nd ", strL "and "), (strL "r ", strL "or "), (strL "pplying ", strL "applying "),
   (strL "griculture ", strL "agriculture "), (strL "nterest ", strL "interest "),
   (strL "eneficiary ", strL "beneficiary "), (strL "cheme ", strL "Scheme "),
   (strL "oans ", strL "loans ")]

/-- Try each repair in order against the lowercased text; the first match
replaces the prefix. -/
def applyLeadingFixes : List (Str × Str) → Str → Str → Str
  | [], x, _ => x
  | (bad, good) :: rest, x, lowers =>
    if bad.isPrefixOf lowers then good ++ x.drop bad.length
    else applyLeadingFixes rest x lowers

/-- `_fix_leading_trunc`. -/
def fixLeadingTrunc (s : Str) : Str :=
  if s = [] then s
  else
    let x := s.dropWhile Char.isWhitespace
    applyLeadingFixes leadingFixes x (x.map Char.toLower)

/-- `t.split(". ")[0]`: the prefix before the first `". "`. -/
def takeUntilSep : Str → Str
  | [] => []
  | '.' :: ' ' :: _ => []
  | c :: rest => c :: takeUntilSep rest

/-- First sentence, truncated to 220 characters plus `"..."` when longer. -/
def cutSentence (t : Str) : Str :=
  let cut := takeUntilSep t
  if 220 < cut.length then cut.take 220 ++ strL "..." else cut

/-- The fixed "no answer found" text of `_local_extractive` /
`generate_answer`, chosen by `(lang or "en").lower() != "hi"`. -/
def noAnswerMsg (lang : Str) : Str :=
  if langLower lang ≠ strL "hi" then strL "No clear answer found in the documents."
  else strL "दस्तावेज़ों में स्पष्ट उत्तर नहीं मिला।"

/-- `_local_extractive`: up to 4 bullets, one per truthy passage among the
first four, each the repaired first sentence; the in-loop `len(bullets) >= 4`
break is redundant over `passages[:4]`. -/
def localExtractive (passages : List Passage) (lang : Str) : Str :=
  let bullets := (passages.take 4).filterMap (fun p =>
    let t := trimS p.text
    if t = [] then none
    else some (strL "• " ++ fixLeadingTrunc (cutSentence t)))
  if bullets = [] then noAnswerMsg lang
  else List.intercalate ['\n'] bullets

/-- `_postprocess_wa` with `ASK_SHOW_SOURCES` off: drop `source(s):` lines,
join non-empty lines, clip to 420 then 480 characters. -/
def postprocessWA (text : Str) : Str :=
  let lines := (text.splitOn '\n').map rstripS
  let cleaned := lines.filter (fun ln =>
    !((strL "source:").isPrefixOf (trimS (ln.map Char.toLower))
      || (strL "sources:").isPrefixOf (trimS (ln.map Char.toLower))))
  let body := rstripS ((List.intercalate ['\n'] (cleaned.filter (fun ln => !ln.isEmpty))).take 420)
  body.take 480

/-- Insert a chunk index under its document key, preserving first-seen
document order (Python dict semantics in `_group_citations`). -/
def addChunk : List (Str × List Int) → Str → Int → List (Str × List Int)
  | [], d, c => [(d, [c])]
  | (d0, cs) :: rest, d, c =>
    if d0 = d then (d0, cs ++ [c]) :: rest else (d0, cs) :: addChunk rest d c

/-- `_group_citations` at its default caps: 3 documents, 4 sorted distinct
chunk indices per document. -/
def groupCitations (passages : List Passage) : List (Str × List Int) :=
  let byDoc := passages.foldl (fun acc p => addChunk acc p.docId p.chunk) []
  (byDoc.map (fun x => (x.1, ((x.2.insertionSort (· ≤ ·)).dedup).take 4))).take 3

/-- `_confidence`: `round(min(0.9, 0.5 + 0.04 * min(len, 10)), 2)` as an
exact rational. -/
def confidence (passages : List Passage) : ℚ :=
  min (9 / 10) (1 / 2 + (min passages.length 10 : ℚ) * (4 / 100))

/-- Outcome of `await call_llm(payload)` with the multi-shape reply probing:
either the extracted reply string, or a raised exception (transport error,
unparseable shape, or the explicit raise on a blank reply is handled
separately below). -/
inductive LlmCall where
  | returns (reply : Str)
  | raises
deriving DecidableEq, Repr

/-- The dict `generate_answer` returns (the timing/token meta fields are
dropped; `source` is meta["source"]). -/
structure AnswerOut where
  answer : Str
  citations : List (Str × List Int)
  confidence : ℚ
  grounded : Bool
  source : Str
deriving DecidableEq, Repr

/-- `generate_answer`.  Branches: empty passage list → fixed message,
no citations, confidence 0, not grounded; LLM disabled or client missing →
local extractive path; otherwise the LLM call either returns a non-blank
reply (post-processed, source "llm") or triggers the local fallback. -/
def generateAnswer (lang : Str) (passages : List Passage) (percentCap : Nat)
    (askUseLLM llmAvailable : Bool) (llm : LlmCall) : AnswerOut :=
  let capped := capPassages passages percentCap
  if passages = [] then
    ⟨noAnswerMsg lang, [], 0, false, strL "local"⟩
  else if ¬askUseLLM ∨ ¬llmAvailable then
    ⟨postprocessWA (localExtractive capped lang), groupCitations capped,
      confidence capped, true, strL "local"⟩
  else
    match llm with
    | .returns r =>
      if trimS r = [] then
        ⟨postprocessWA (localExtractive capped lang), groupCitations capped,
          confidence capped, true, strL "local"⟩
      else
        ⟨postprocessWA (trimS r), groupCitations capped, confidence capped, true, strL "llm"⟩
    | .raises =>
      ⟨postprocessWA (localExtractive capped lang), groupCitations capped,
        confidence capped, true, strL "local"⟩

/-- C9: with no passages the answer is the fixed language-appropriate text
with no citations, confidence 0, grounded false; with any passages the result
is grounded in every branch — remote reply, no-LLM local path, blank-reply
fallback, and exception fallback alike. -/
theorem c9_empty_vs_grounded (lang : Str) (passages : List Passage) (percentCap : Nat)
    (askUseLLM llmAvailable : Bool) (llm : LlmCall) :
    (passages = [] →
      generateAnswer lang passages percentCap askUseLLM llmAvailable llm
        = ⟨noAnswerMsg lang, [], 0, false, strL "local"⟩) ∧
    (passages ≠ [] →
      (generateAnswer lang passages percentCap askUseLLM llmAvailable llm).grounded
        = true) := by
  constructor
  · intro h
    rw [generateAnswer.eq_def, if_pos h]
  · intro h
    rw [generateAnswer.eq_def, if_neg h]
    by_cases h2 : ¬askUseLLM ∨ ¬llmAvailable
    · rw [if_pos h2]
    · rw [if_neg h2]
      cases llm with
      | returns r =>
        by_cases h3 : trimS r = []
        · simp only [if_pos h3]
        · simp only [if_neg h3]
      | raises => rfl

/-- Witness for C9 at concrete inputs: the empty case produces the fixed
English message ungrounded, and a one-passage call through the exception
fallback is grounded. -/
theorem c9_witness :
    generateAnswer (strL "en") [] 60 true true LlmCall.raises
      = ⟨noAnswerMsg (strL "en"), [], 0, false, strL "local"⟩ ∧
    ([(⟨strL "d", 0, strL "text", 1⟩ : Passage)] ≠ [] ∧
      (generateAnswer (strL "en") [⟨strL "d", 0, strL "text", 1⟩] 60 true true
        LlmCall.raises).grounded = true) :=
  ⟨(c9_empty_vs_grounded (strL "en") [] 60 true true LlmCall.raises).1 rfl,
   by decide,
   (c9_empty_vs_grounded (strL "en") [⟨strL "d", 0, strL "text", 1⟩] 60 true true
     LlmCall.raises).2 (by decide)⟩

/-- A cut first sentence is at most 223 characters (220 plus the ellipsis). -/
theorem cutSentence_len_le (t : Str) : (cutSentence t).length ≤ 223 := by
  rw [cutSentence]
  by_cases h : 220 < (takeUntilSep t).length
  · rw [if_pos h, List.length_append, List.length_take]
    simp [strL]
  · rw [if_neg h]
    omega

/-- Each repair lengthens the text by at most one character. -/
theorem applyLeadingFixes_len_le :
    ∀ (fixes : List (Str × Str)) (x lowers : Str),
      (∀ pr ∈ fixes, pr.2.length ≤ pr.1.length + 1) → lowers.length = x.length →
      (applyLeadingFixes fixes x lowers).length ≤ x.length + 1 := by
  intro fixes
  induction fixes with
  | nil => intro x lowers _ _; simp [applyLeadingFixes]
  | cons pr rest ih =>
    intro x lowers hall hlen
    obtain ⟨bad, good⟩ := pr
    rw [applyLeadingFixes]
    by_cases h : bad.isPrefixOf lowers
    · rw [if_pos h]
      have hprefl : bad.length ≤ lowers.length :=
        (List.isPrefixOf_iff_prefix.mp h).length_le
      have hgood : good.length ≤ bad.length + 1 := hall (bad, good) (List.mem_cons_self _ _)
      rw [List.length_append, List.length_drop]
      omega
    · rw [if_neg h]
      exact ih x lowers (fun q hq => hall q (List.mem_cons_of_mem _ hq)) hlen

/-- `_fix_leading_trunc` lengthens its input by at most one character. -/
theorem fixLeadingTrunc_len_le (s : Str) : (fixLeadingTrunc s).length ≤ s.length + 1 := by
  rw [fixLeadingTrunc]
  by_cases h : s = []
  · rw [if_pos h]; omega
  · rw [if_neg h]
    dsimp only
    have hx : (s.dropWhile Char.isWhitespace).length ≤ s.length :=
      (List.dropWhile_sublist _).length_le
    have := applyLeadingFixes_len_le leadingFixes (s.dropWhile Char.isWhitespace)
      ((s.dropWhile Char.isWhitespace).map Char.toLower)
      (by decide) (List.length_map _ _)
    omega

/-- C10: `_local_extractive` is a total, pure function (it terminates and
raises nothing, and performs no I/O — the model is a plain function of the
passage list).  When no passage has truthy text it returns the fixed
language-appropriate message; otherwise it returns at most four bullets
joined by newlines, each bullet derived from one of the first four passages
as the repaired, 220-character-capped first sentence, at most 226 characters
long. -/
theorem c10_local_extractive_shape (passages : List Passage) (lang : Str) :
    ((∀ p ∈ passages, trimS p.text = []) →
      localExtractive passages lang = noAnswerMsg lang) ∧
    (localExtractive passages lang = noAnswerMsg lang ∨
      ∃ bs : List Str, bs ≠ [] ∧ bs.length ≤ 4 ∧
        localExtractive passages lang = List.intercalate ['\n'] bs ∧
        ∀ b ∈ bs, ∃ p ∈ passages.take 4, trimS p.text ≠ [] ∧
          b = strL "• " ++ fixLeadingTrunc (cutSentence (trimS p.text)) ∧
          b.length ≤ 226) := by
  constructor
  · intro hall
    rw [localExtractive]
    have hnil : (passages.take 4).filterMap (fun p =>
        let t := trimS p.text
        if t = [] then none
        else some (strL "• " ++ fixLeadingTrunc (cutSentence t))) = [] := by
      rw [List.filterMap_eq_nil_iff]
      intro p hp
      have := hall p (List.mem_of_mem_take hp)
      simp only [this]
      rfl
    rw [hnil]
    rfl
  · by_cases hnil : (passages.take 4).filterMap (fun p =>
        let t := trimS p.text
        if t = [] then none
        else some (strL "• " ++ fixLeadingTrunc (cutSentence t))) = []
    · left
      rw [localExtractive, hnil]
      rfl
    · right
      refine ⟨_, hnil, ?_, ?_, ?_⟩
      · calc ((passages.take 4).filterMap _).length ≤ (passages.take 4).length :=
              List.length_filterMap_le _ _
          _ ≤ 4 := by simp [List.length_take]
      · rw [localExtractive, if_neg hnil]
      · intro b hb
        obtain ⟨p, hp, hfp⟩ := List.mem_filterMap.mp hb
        by_cases ht : trimS p.text = []
        · simp only [ht] at hfp
          exact absurd hfp (by simp)
        · simp only [if_neg ht] at hfp
          have hb : b = strL "• " ++ fixLeadingTrunc (cutSentence (trimS p.text)) :=
            (Option.some.inj hfp).symm
          refine ⟨p, hp, ht, hb, ?_⟩
          rw [hb, List.length_append]
          have h1 := fixLeadingTrunc_len_le (cutSentence (trimS p.text))
          have h2 := cutSentence_len_le (trimS p.text)
          have h3 : (strL "• ").length = 2 := by decide
          omega

/-- Witness for C10 at a concrete input: a whitespace-only passage list
yields the fixed message; a real passage yields one bullet. -/
theorem c10_witness :
    ((∀ p ∈ [(⟨strL "d", 0, strL "   ", 0⟩ : Passage)], trimS p.text = []) ∧
      localExtractive [⟨strL "d", 0, strL "   ", 0⟩] (strL "en")
        = noAnswerMsg (strL "en")) ∧
    (localExtractive [⟨strL "d", 0, strL "Apply early. Then wait.", 0⟩] (strL "en")
        = noAnswerMsg (strL "en") ∨
      ∃ bs : List Str, bs ≠ [] ∧ bs.length ≤ 4 ∧
        localExtractive [⟨strL "d", 0, strL "Apply early. Then wait.", 0⟩] (strL "en")
          = List.intercalate ['\n'] bs ∧
        ∀ b ∈ bs, ∃ p ∈ [(⟨strL "d", 0, strL "Apply early. Then wait.", 0⟩ : Passage)].take 4,
          trimS p.text ≠ [] ∧
          b = strL "• " ++ fixLeadingTrunc (cutSentence (trimS p.text)) ∧
          b.length ≤ 226) :=
  ⟨⟨by decide,
    (c10_local_extractive_shape [⟨strL "d", 0, strL "   ", 0⟩] (strL "en")).1 (by decide)⟩,
   (c10_local_extractive_shape [⟨strL "d", 0, strL "Apply early. Then wait.", 0⟩]
     (strL "en")).2⟩

/-!
## `server_hr.py` — `api_search` fusion, dedup, backfill

Hits carry the fields the fusion logic reads (`doc_id`, `chunk_index`,
`score`, `text`, `source`); the pass-through metadata columns (`title`,
`dept`, `lang`) are omitted.  Scores are exact rationals.  The `merged`
Python dict is an association list preserving insertion order (dict
semantics: assignment to an existing key keeps its position, new keys go to
the end).
-/

/-- A search hit as `api_search` handles it. -/
structure SearchHit where
  docId : Str
  chunkIndex : Int
  score : ℚ
  text : Str
  source : Str
deriving DecidableEq, Repr

/-- The identity key `(doc_id, chunk_index)`. -/
def hitKey (h : SearchHit) : Str × Int := (h.docId, h.chunkIndex)

/-- `clamp01`: `max(0.0, min(1.0, x))`. -/
def clamp01 (x : ℚ) : ℚ := max 0 (min 1 x)

/-- One entry of the `merged` dict. -/
structure MergedRec where
  docId : Str
  chunkIndex : Int
  sem : ℚ
  kw : ℚ
  text : Str
  sourceSem : Bool
  sourceKw : Bool
deriving DecidableEq, Repr

/-- The identity key of a merged entry. -/
def recKey (m : MergedRec) : Str × Int := (m.docId, m.chunkIndex)

/-- The entry a semantic hit writes: `s_norm = clamp01((score + 1) / 2)`. -/
def semRec (h : SearchHit) : MergedRec :=
  ⟨h.docId, h.chunkIndex, clamp01 ((h.score + 1) / 2), 0, h.text, true, false⟩

/-- Dict assignment `merged[key] = rec`: replace in place, else append. -/
def upsertRec : List MergedRec → MergedRec → List MergedRec
  | [], r => [r]
  | m :: rest, r => if recKey m = recKey r then r :: rest else m :: upsertRec rest r

/-- The semantic loop of the merge. -/
def semPhase (semHits : List SearchHit) : List MergedRec :=
  semHits.foldl (fun acc h => upsertRec acc (semRec h)) []

/-- The keyword loop body: `kw_norm = clamp01(score)`; an existing entry gets
`kw = max(kw, kw_norm)`, its text backfilled if empty, and `source_kw = True`;
a new key appends a keyword-only entry. -/
def kwUpdate : List MergedRec → SearchHit → List MergedRec
  | [], h => [⟨h.docId, h.chunkIndex, 0, clamp01 h.score, h.text, false, true⟩]
  | m :: rest, h =>
    if recKey m = (h.docId, h.chunkIndex) then
      { m with kw := max m.kw (clamp01 h.score),
               text := if m.text = [] then h.text else m.text,
               sourceKw := true } :: rest
    else m :: kwUpdate rest h

/-- The merged dict after both loops. -/
def mergePhase (semHits kwHits : List SearchHit) : List MergedRec :=
  kwHits.foldl kwUpdate (semPhase semHits)

/-- The fusion loop: `combined = alpha * sem + (1 - alpha) * kw`, source
hybrid / semantic / keyword by which pools contributed. -/
def fusePhase (ms : List MergedRec) (alpha : ℚ) : List SearchHit :=
  ms.map (fun m =>
    ⟨m.docId, m.chunkIndex, alpha * m.sem + (1 - alpha) * m.kw, m.text,
      if m.sourceSem ∧ m.sourceKw then strL "hybrid"
      else if m.sourceSem then strL "semantic" else strL "keyword"⟩)

/-- The strict dedup walk: keep a candidate only if no kept one shares its
`doc_id` within chunk distance 1; stop once `n` are kept. -/
def strictPassGo (n : Nat) : List SearchHit → List SearchHit → List SearchHit
  | [], acc => acc
  | c :: cs, acc =>
    if acc.any (fun kept =>
        decide (c.docId = kept.docId ∧ (c.chunkIndex - kept.chunkIndex).natAbs ≤ 1)) then
      strictPassGo n cs acc
    else
      let acc2 := acc ++ [c]
      if n ≤ acc2.length then acc2 else strictPassGo n cs acc2

/-- The strict dedup pass over the sorted candidates. -/
def strictPass (cands : List SearchHit) (n : Nat) : List SearchHit :=
  strictPassGo n cands []

/-- The backfill walk: append any candidate not already kept (full record
equality, as Python's `cand in fused`), until `n` are kept. -/
def backfillGo (n : Nat) : List SearchHit → List SearchHit → List SearchHit
  | [], kept => kept
  | c :: cs, kept =>
    if c ∈ kept then backfillGo n cs kept
    else
      let kept2 := kept ++ [c]
      if n ≤ kept2.length then kept2 else backfillGo n cs kept2

/-- The dedup phase of `api_search`: strict pass, then backfill when short. -/
def dedupPhase (cands : List SearchHit) (n : Nat) : List SearchHit :=
  let s := strictPass cands n
  if s.length < n then backfillGo n cands s else s

theorem clamp01_nonneg (x : ℚ) : 0 ≤ clamp01 x := le_max_left 0 _

theorem clamp01_le_one (x : ℚ) : clamp01 x ≤ 1 :=
  max_le zero_le_one (min_le_left 1 x)

/-- Dict assignment with a fresh key appends. -/
theorem upsertRec_fresh :
    ∀ (acc : List MergedRec) (r : MergedRec), (∀ m ∈ acc, recKey m ≠ recKey r) →
      upsertRec acc r = acc ++ [r] := by
  intro acc
  induction acc with
  | nil => intro r _; rfl
  | cons m rest ih =>
    intro r hfresh
    rw [upsertRec, if_neg (hfresh m (List.mem_cons_self _ _))]
    rw [ih r (fun m' hm' => hfresh m' (List.mem_cons_of_mem _ hm')), List.cons_append]

/-- With pairwise-distinct keys, the semantic loop writes one entry per hit,
in order. -/
theorem semFold_eq :
    ∀ (l : List SearchHit) (acc : List MergedRec),
      l.Pairwise (fun a b => hitKey a ≠ hitKey b) →
      (∀ h ∈ l, ∀ m ∈ acc, recKey m ≠ hitKey h) →
      l.foldl (fun acc h => upsertRec acc (semRec h)) acc = acc ++ l.map semRec := by
  intro l
  induction l with
  | nil => intro acc _ _; simp
  | cons h t ih =>
    intro acc hpair hfresh
    rw [List.foldl_cons, upsertRec_fresh acc (semRec h)
      (fun m hm => hfresh h (List.mem_cons_self _ _) m hm)]
    rw [ih (acc ++ [semRec h]) hpair.of_cons ?fresh2]
    · simp
    case fresh2 =>
      intro h' hh' m hm
      rcases List.mem_append.mp hm with hm1 | hm2
      · exact hfresh h' (List.mem_cons_of_mem _ hh') m hm1
      · have : m = semRec h := by simpa using hm2
        subst this
        show hitKey h ≠ hitKey h'
        exact (List.pairwise_cons.mp hpair).1 h' hh'

/-- Membership in a keyword-loop step: an entry is untouched, or it is the
first entry with the hit's key updated, or it is the appended new entry. -/
theorem kwUpdate_cases :
    ∀ (acc : List MergedRec) (h : SearchHit) (r : MergedRec), r ∈ kwUpdate acc h →
      r ∈ acc ∨
      (∃ m ∈ acc, recKey m = (h.docId, h.chunkIndex) ∧
        r = { m with kw := max m.kw (clamp01 h.score),
                     text := if m.text = [] then h.text else m.text,
                     sourceKw := true }) ∨
      r = ⟨h.docId, h.chunkIndex, 0, clamp01 h.score, h.text, false, true⟩ := by
  intro acc
  induction acc with
  | nil =>
    intro h r hr
    right; right
    simpa [kwUpdate] using hr
  | cons m rest ih =>
    intro h r hr
    rw [kwUpdate] at hr
    by_cases hkey : recKey m = (h.docId, h.chunkIndex)
    · rw [if_pos hkey] at hr
      rcases List.mem_cons.mp hr with hr1 | hr2
      · right; left
        exact ⟨m, List.mem_cons_self _ _, hkey, hr1⟩
      · left
        exact List.mem_cons_of_mem _ hr2
    · rw [if_neg hkey] at hr
      rcases List.mem_cons.mp hr with hr1 | hr2
      · left
        rw [hr1]
        exact List.mem_cons_self _ _
      · rcases ih h r hr2 with h1 | h2 | h3
        · exact Or.inl (List.mem_cons_of_mem _ h1)
        · obtain ⟨m0, hm0, hk0, he0⟩ := h2
          exact Or.inr (Or.inl ⟨m0, List.mem_cons_of_mem _ hm0, hk0, he0⟩)
        · exact Or.inr (Or.inr h3)

/-- Invariant of the keyword loop: every merged entry's `sem` component is
the clamped affine image of a semantic hit with its key (or `0`), and its
`kw` component is the clamped score of a keyword hit with its key (or `0`). -/
theorem kwFold_facts (semHits kwAll : List SearchHit) :
    ∀ (ks : List SearchHit) (acc : List MergedRec),
      ks.Pairwise (fun a b => hitKey a ≠ hitKey b) →
      (∀ h ∈ ks, h ∈ kwAll) →
      (∀ rec ∈ acc,
        (rec.sourceSem = true → ∃ h ∈ semHits, recKey rec = hitKey h ∧
          rec.sem = clamp01 ((h.score + 1) / 2)) ∧
        (rec.sourceSem = false → rec.sem = 0) ∧
        (rec.sourceKw = true → ∃ h ∈ kwAll, recKey rec = hitKey h ∧
          rec.kw = clamp01 h.score) ∧
        (rec.sourceKw = false → rec.kw = 0) ∧
        (∀ h ∈ ks, recKey rec = hitKey h → rec.sourceKw = false)) →
      ∀ rec ∈ ks.foldl kwUpdate acc,
        (rec.sourceSem = true → ∃ h ∈ semHits, recKey rec = hitKey h ∧
          rec.sem = clamp01 ((h.score + 1) / 2)) ∧
        (rec.sourceSem = false → rec.sem = 0) ∧
        (rec.sourceKw = true → ∃ h ∈ kwAll, recKey rec = hitKey h ∧
          rec.kw = clamp01 h.score) ∧
        (rec.sourceKw = false → rec.kw = 0) := by
  intro ks
  induction ks with
  | nil =>
    intro acc _ _ hinv rec hrec
    have h := hinv rec (by simpa using hrec)
    exact ⟨h.1, h.2.1, h.2.2.1, h.2.2.2.1⟩
  | cons h t ih =>
    intro acc hpair hsub hinv
    rw [List.foldl_cons]
    apply ih (kwUpdate acc h) hpair.of_cons
      (fun h' hh' => hsub h' (List.mem_cons_of_mem _ hh'))
    intro rec hrec
    rcases kwUpdate_cases acc h rec hrec with hold | hupd | hnew
    · have hp := hinv rec hold
      exact ⟨hp.1, hp.2.1, hp.2.2.1, hp.2.2.2.1,
        fun h' hh' => hp.2.2.2.2 h' (List.mem_cons_of_mem _ hh')⟩
    · obtain ⟨m, hm, hkeym, heq⟩ := hupd
      have hp := hinv m hm
      have hkwfalse : m.sourceKw = false :=
        hp.2.2.2.2 h (List.mem_cons_self _ _) (by rw [hkeym]; rfl)
      have hkw0 : m.kw = 0 := hp.2.2.2.1 hkwfalse
      have hreckey : recKey rec = (h.docId, h.chunkIndex) := by
        rw [heq, ← hkeym]
        rfl
      refine ⟨?_, ?_, ?_, ?_, ?_⟩
      · intro hss
        have : m.sourceSem = true := by rw [heq] at hss; exact hss
        obtain ⟨h0, hh0, hk0, hs0⟩ := hp.1 this
        refine ⟨h0, hh0, ?_, ?_⟩
        · rw [hreckey, ← hkeym]; exact hk0
        · rw [heq]; exact hs0
      · intro hss
        have : m.sourceSem = false := by rw [heq] at hss; exact hss
        rw [heq]
        exact hp.2.1 this
      · intro _
        refine ⟨h, hsub h (List.mem_cons_self _ _), hreckey, ?_⟩
        rw [heq]
        show max m.kw (clamp01 h.score) = clamp01 h.score
        rw [hkw0]
        exact max_eq_right (clamp01_nonneg _)
      · intro hfalse
        rw [heq] at hfalse
        exact absurd hfalse (by simp)
      · intro h' hh' hksame
        exfalso
        have h1 : hitKey h ≠ hitKey h' := (List.pairwise_cons.mp hpair).1 h' hh'
        apply h1
        rw [show hitKey h = (h.docId, h.chunkIndex) from rfl, ← hreckey, hksame]
    · refine ⟨?_, ?_, ?_, ?_, ?_⟩
      · intro hss; rw [hnew] at hss; exact absurd hss (by simp)
      · intro _; rw [hnew]
      · intro _
        refine ⟨h, hsub h (List.mem_cons_self _ _), ?_, ?_⟩
        · rw [hnew]; rfl
        · rw [hnew]
      · intro hfalse; rw [hnew] at hfalse; exact absurd hfalse (by simp)
      · intro h' hh' hksame
        exfalso
        have h1 : hitKey h ≠ hitKey h' := (List.pairwise_cons.mp hpair).1 h' hh'
        apply h1
        rw [hnew] at hksame
        exact hksame

/-- Every merged entry satisfies the normalization facts. -/
theorem mergePhase_facts (semHits kwHits : List SearchHit)
    (hsem : semHits.Pairwise (fun a b => hitKey a ≠ hitKey b))
    (hkw : kwHits.Pairwise (fun a b => hitKey a ≠ hitKey b)) :
    ∀ rec ∈ mergePhase semHits kwHits,
      (rec.sourceSem = true → ∃ h ∈ semHits, recKey rec = hitKey h ∧
        rec.sem = clamp01 ((h.score + 1) / 2)) ∧
      (rec.sourceSem = false → rec.sem = 0) ∧
      (rec.sourceKw = true → ∃ h ∈ kwHits, recKey rec = hitKey h ∧
        rec.kw = clamp01 h.score) ∧
      (rec.sourceKw = false → rec.kw = 0) := by
  have hsemEq : semPhase semHits = semHits.map semRec := by
    rw [semPhase, semFold_eq semHits [] hsem (by simp)]
    simp
  apply kwFold_facts semHits kwHits kwHits (semPhase semHits) hkw (fun h hh => hh)
  intro rec hrec
  rw [hsemEq] at hrec
  obtain ⟨h0, hh0, hrec0⟩ := List.mem_map.mp hrec
  subst hrec0
  refine ⟨?_, ?_, ?_, ?_, ?_⟩
  · intro _
    exact ⟨h0, hh0, rfl, rfl⟩
  · intro hfalse
    exact absurd hfalse (by simp [semRec])
  · intro htrue
    exact absurd htrue (by simp [semRec])
  · intro _
    rfl
  · intro _ _ _
    rfl

/-- Modelled from the spec's words (C4), for comparison with the code:
min–max scaling of a pool's scores — `(s - min) / (max - min)`, all `0` when
the pool's scores are all equal, empty for an empty pool. -/
def specMinMaxNorm (scores : List ℚ) : List ℚ :=
  match scores with
  | [] => []
  | s :: rest =>
    let lo := rest.foldl min s
    let hi := rest.foldl max s
    if hi ≤ lo then (s :: rest).map (fun _ => 0)
    else (s :: rest).map (fun x => (x - lo) / (hi - lo))

/-- C4 (amended): `api_search` does not min–max scale.  Each merged entry's
semantic component is `clamp01((score + 1) / 2)` of a semantic hit with its
key (or `0` if the key is keyword-only), and its keyword component is
`clamp01(score)` of a keyword hit with its key (or `0` if semantic-only);
empty pools contribute no entries. -/
theorem c4_pool_normalization (semHits kwHits : List SearchHit)
    (hsem : semHits.Pairwise (fun a b => hitKey a ≠ hitKey b))
    (hkw : kwHits.Pairwise (fun a b => hitKey a ≠ hitKey b)) :
    (∀ rec ∈ mergePhase semHits kwHits,
      (rec.sourceSem = true → ∃ h ∈ semHits, recKey rec = hitKey h ∧
        rec.sem = clamp01 ((h.score + 1) / 2)) ∧
      (rec.sourceSem = false → rec.sem = 0) ∧
      (rec.sourceKw = true → ∃ h ∈ kwHits, recKey rec = hitKey h ∧
        rec.kw = clamp01 h.score) ∧
      (rec.sourceKw = false → rec.kw = 0)) ∧
    mergePhase [] [] = ([] : List MergedRec) :=
  ⟨mergePhase_facts semHits kwHits hsem hkw, rfl⟩

/-- The concrete semantic hit used for C4. -/
def cexC4Hit : SearchHit := ⟨strL "d", 0, 1, strL "t", strL "semantic"⟩

/-- Witness for C4 at a concrete input: the single merged entry of a
one-hit semantic pool satisfies the normalization facts. -/
theorem c4_witness :
    (List.Pairwise (fun a b => hitKey a ≠ hitKey b) [cexC4Hit] ∧
      List.Pairwise (fun a b => hitKey a ≠ hitKey b) ([] : List SearchHit)) ∧
    (((semRec cexC4Hit).sourceSem = true → ∃ h ∈ [cexC4Hit],
        recKey (semRec cexC4Hit) = hitKey h ∧
        (semRec cexC4Hit).sem = clamp01 ((h.score + 1) / 2)) ∧
      ((semRec cexC4Hit).sourceSem = false → (semRec cexC4Hit).sem = 0) ∧
      ((semRec cexC4Hit).sourceKw = true → ∃ h ∈ ([] : List SearchHit),
        recKey (semRec cexC4Hit) = hitKey h ∧
        (semRec cexC4Hit).kw = clamp01 h.score) ∧
      ((semRec cexC4Hit).sourceKw = false → (semRec cexC4Hit).kw = 0)) :=
  ⟨⟨by decide, by decide⟩,
   (c4_pool_normalization [cexC4Hit] [] (by decide) (by decide)).1 (semRec cexC4Hit)
     (List.mem_cons_self _ _)⟩

/-- Counterexample to C4 as stated: a semantic pool with a single hit of
score `1`.  Min–max scaling (the claim: a pool with all-equal scores
normalizes to `0`) yields `[0]`, but the code's merged entry carries
`sem = clamp01((1 + 1) / 2) = 1 ≠ 0`. -/
theorem c4_counterexample :
    (mergePhase [cexC4Hit] []).map (fun r => r.sem) = [clamp01 ((1 + 1) / 2)] ∧
    clamp01 ((1 + 1) / 2) = 1 ∧
    specMinMaxNorm [(1 : ℚ)] = [0] ∧
    (1 : ℚ) ≠ 0 := by
  refine ⟨rfl, ?_, ?_, by norm_num⟩
  · rw [clamp01]
    norm_num
  · rw [specMinMaxNorm]
    simp

/-- C5: each fused candidate's score is `alpha·sem + (1−alpha)·kw` over the
merged components, every fused score lies in `[0, 1]` (for the env-clamped
`alpha ∈ [0,1]`), and the source tag is `hybrid` when both pools contributed,
else `semantic`/`keyword` with the missing component equal to `0`.
Determinism is definitional in this embedding: the fusion is a pure function
of the two pools (Python dict iteration order is insertion order, which the
association list mirrors). -/
theorem c5_fusion_properties (semHits kwHits : List SearchHit) (alpha : ℚ)
    (hsem : semHits.Pairwise (fun a b => hitKey a ≠ hitKey b))
    (hkw : kwHits.Pairwise (fun a b => hitKey a ≠ hitKey b))
    (ha0 : 0 ≤ alpha) (ha1 : alpha ≤ 1) :
    ∀ out ∈ fusePhase (mergePhase semHits kwHits) alpha,
      0 ≤ out.score ∧ out.score ≤ 1 ∧
      ∃ rec ∈ mergePhase semHits kwHits,
        out.score = alpha * rec.sem + (1 - alpha) * rec.kw ∧
        (rec.sourceSem = true ∧ rec.sourceKw = true → out.source = strL "hybrid") ∧
        (rec.sourceSem = true ∧ rec.sourceKw = false →
          out.source = strL "semantic" ∧ rec.kw = 0) ∧
        (rec.sourceSem = false ∧ rec.sourceKw = true →
          out.source = strL "keyword" ∧ rec.sem = 0) := by
  intro out hout
  obtain ⟨rec, hrec, hmap⟩ := List.mem_map.mp hout
  have hfacts := mergePhase_facts semHits kwHits hsem hkw rec hrec
  have hsemb : 0 ≤ rec.sem ∧ rec.sem ≤ 1 := by
    cases hflag : rec.sourceSem with
    | false =>
      rw [hfacts.2.1 hflag]
      exact ⟨le_refl 0, zero_le_one⟩
    | true =>
      obtain ⟨h0, _, _, hs0⟩ := hfacts.1 hflag
      rw [hs0]
      exact ⟨clamp01_nonneg _, clamp01_le_one _⟩
  have hkwb : 0 ≤ rec.kw ∧ rec.kw ≤ 1 := by
    cases hflag : rec.sourceKw with
    | false =>
      rw [hfacts.2.2.2 hflag]
      exact ⟨le_refl 0, zero_le_one⟩
    | true =>
      obtain ⟨h0, _, _, hs0⟩ := hfacts.2.2.1 hflag
      rw [hs0]
      exact ⟨clamp01_nonneg _, clamp01_le_one _⟩
  have hscore : out.score = alpha * rec.sem + (1 - alpha) * rec.kw := by
    rw [← hmap]
  refine ⟨?_, ?_, rec, hrec, hscore, ?_, ?_, ?_⟩
  · rw [hscore]
    have := mul_nonneg ha0 hsemb.1
    have := mul_nonneg (by linarith : (0 : ℚ) ≤ 1 - alpha) hkwb.1
    linarith
  · rw [hscore]
    nlinarith [hsemb.1, hsemb.2, hkwb.1, hkwb.2]
  · intro ⟨h1, h2⟩
    rw [← hmap]
    simp [h1, h2]
  · intro ⟨h1, h2⟩
    refine ⟨?_, hfacts.2.2.2 h2⟩
    rw [← hmap]
    simp [h1, h2]
  · intro ⟨h1, h2⟩
    refine ⟨?_, hfacts.2.1 h1⟩
    rw [← hmap]
    simp [h1, h2]

/-- The concrete semantic hit used for the C5 witness. -/
def cexC5Hit : SearchHit := ⟨strL "d", 0, 1, strL "t", strL "semantic"⟩

/-- The fused candidate the C5 witness instantiates. -/
def c5OutInstance : SearchHit :=
  ⟨strL "d", 0, (1 / 2 : ℚ) * clamp01 ((1 + 1) / 2) + (1 - 1 / 2) * 0, strL "t",
    strL "semantic"⟩

/-- Witness for C5 at a concrete input: a one-hit semantic pool fused at
`alpha = 1/2`. -/
theorem c5_witness :
    (List.Pairwise (fun a b => hitKey a ≠ hitKey b) [cexC5Hit] ∧
      List.Pairwise (fun a b => hitKey a ≠ hitKey b) ([] : List SearchHit) ∧
      (0 : ℚ) ≤ 1 / 2 ∧ (1 / 2 : ℚ) ≤ 1) ∧
    (0 ≤ c5OutInstance.score ∧ c5OutInstance.score ≤ 1 ∧
      ∃ rec ∈ mergePhase [cexC5Hit] [],
        c5OutInstance.score = (1 / 2 : ℚ) * rec.sem + (1 - 1 / 2) * rec.kw ∧
        (rec.sourceSem = true ∧ rec.sourceKw = true →
          c5OutInstance.source = strL "hybrid") ∧
        (rec.sourceSem = true ∧ rec.sourceKw = false →
          c5OutInstance.source = strL "semantic" ∧ rec.kw = 0) ∧
        (rec.sourceSem = false ∧ rec.sourceKw = true →
          c5OutInstance.source = strL "keyword" ∧ rec.sem = 0)) :=
  ⟨⟨by decide, by decide, by norm_num, by norm_num⟩,
   c5_fusion_properties [cexC5Hit] [] (1 / 2) (by decide) (by decide) (by norm_num)
     (by norm_num) c5OutInstance (List.mem_cons_self _ _)⟩

/-- The strict pass appends a subsequence of the candidates to its
accumulator. -/
theorem strictPassGo_sub (n : Nat) :
    ∀ (cs acc : List SearchHit), ∃ sub, List.Sublist sub cs ∧
      strictPassGo n cs acc = acc ++ sub := by
  intro cs
  induction cs with
  | nil => intro acc; exact ⟨[], List.Sublist.refl _, by simp [strictPassGo]⟩
  | cons c cs ih =>
    intro acc
    rw [strictPassGo]
    by_cases h1 : acc.any (fun kept =>
        decide (c.docId = kept.docId ∧ (c.chunkIndex - kept.chunkIndex).natAbs ≤ 1))
    · rw [if_pos h1]
      obtain ⟨sub, hsub, heq⟩ := ih acc
      exact ⟨sub, List.Sublist.cons c hsub, heq⟩
    · rw [if_neg h1]
      dsimp only
      by_cases h2 : n ≤ (acc ++ [c]).length
      · rw [if_pos h2]
        exact ⟨[c], by simp, by simp⟩
      · rw [if_neg h2]
        obtain ⟨sub, hsub, heq⟩ := ih (acc ++ [c])
        exact ⟨c :: sub, List.Sublist.cons₂ c hsub, by rw [heq]; simp⟩

/-- The strict pass preserves adjacency-freedom of its accumulator. -/
theorem strictPassGo_adj (n : Nat) :
    ∀ (cs acc : List SearchHit),
      acc.Pairwise (fun a b => a.docId = b.docId → 1 < (a.chunkIndex - b.chunkIndex).natAbs) →
      (strictPassGo n cs acc).Pairwise
        (fun a b => a.docId = b.docId → 1 < (a.chunkIndex - b.chunkIndex).natAbs) := by
  intro cs
  induction cs with
  | nil => intro acc hacc; exact hacc
  | cons c cs ih =>
    intro acc hacc
    rw [strictPassGo]
    by_cases h1 : acc.any (fun kept =>
        decide (c.docId = kept.docId ∧ (c.chunkIndex - kept.chunkIndex).natAbs ≤ 1))
    · rw [if_pos h1]
      exact ih acc hacc
    · rw [if_neg h1]
      dsimp only
      have hfar : ∀ kept ∈ acc,
          ¬ (c.docId = kept.docId ∧ (c.chunkIndex - kept.chunkIndex).natAbs ≤ 1) := by
        intro kept hk
        have h1f : acc.any (fun kept =>
            decide (c.docId = kept.docId ∧ (c.chunkIndex - kept.chunkIndex).natAbs ≤ 1))
              = false := by
          simpa using h1
        have := List.any_eq_false.mp h1f kept hk
        simpa using this
      have hacc2 : (acc ++ [c]).Pairwise
          (fun a b => a.docId = b.docId → 1 < (a.chunkIndex - b.chunkIndex).natAbs) := by
        rw [List.pairwise_append]
        refine ⟨hacc, by simp, ?_⟩
        intro a ha b hb
        have hb' : b = c := by simpa using hb
        subst hb'
        intro hdoc
        have := hfar a ha
        have hne : ¬ (b.chunkIndex - a.chunkIndex).natAbs ≤ 1 := by
          intro hle
          exact this ⟨hdoc.symm, hle⟩
        have hsymm : (a.chunkIndex - b.chunkIndex).natAbs
            = (b.chunkIndex - a.chunkIndex).natAbs := by
          rw [← Int.natAbs_neg, neg_sub]
        omega
      by_cases h2 : n ≤ (acc ++ [c]).length
      · rw [if_pos h2]
        exact hacc2
      · rw [if_neg h2]
        exact ih (acc ++ [c]) hacc2

/-- Distinct keys make the key an injective identifier within the list. -/
theorem pairwise_key_inj {cands : List SearchHit}
    (h : cands.Pairwise (fun a b => hitKey a ≠ hitKey b)) :
    ∀ a ∈ cands, ∀ b ∈ cands, hitKey a = hitKey b → a = b := by
  induction cands with
  | nil => intro a ha; exact absurd ha (by simp)
  | cons x t ih =>
    intro a ha b hb hkey
    have hx := List.pairwise_cons.mp h
    rcases List.mem_cons.mp ha with rfl | ha' <;> rcases List.mem_cons.mp hb with rfl | hb'
    · rfl
    · exact absurd hkey (hx.1 b hb')
    · exact absurd hkey.symm (hx.1 a ha')
    · exact ih hx.2 a ha' b hb' hkey

/-- Backfill never introduces a kept identity key again: with key-distinct
candidates, the kept list stays key-distinct and inside the candidate set. -/
theorem backfillGo_keyNe {cands : List SearchHit}
    (hc : cands.Pairwise (fun a b => hitKey a ≠ hitKey b)) (n : Nat) :
    ∀ (cs kept : List SearchHit), (∀ x ∈ cs, x ∈ cands) → (∀ x ∈ kept, x ∈ cands) →
      kept.Pairwise (fun a b => hitKey a ≠ hitKey b) →
      (backfillGo n cs kept).Pairwise (fun a b => hitKey a ≠ hitKey b) := by
  intro cs
  induction cs with
  | nil => intro kept _ _ hkept; exact hkept
  | cons c cs ih =>
    intro kept hcs hkept hpair
    rw [backfillGo]
    by_cases h1 : c ∈ kept
    · rw [if_pos h1]
      exact ih kept (fun x hx => hcs x (List.mem_cons_of_mem _ hx)) hkept hpair
    · rw [if_neg h1]
      dsimp only
      have hkept2 : (kept ++ [c]).Pairwise (fun a b => hitKey a ≠ hitKey b) := by
        rw [List.pairwise_append]
        refine ⟨hpair, by simp, ?_⟩
        intro a ha b hb
        have hb' : b = c := by simpa using hb
        subst hb'
        intro hkey
        have : a = b := pairwise_key_inj hc a (hkept a ha) b
          (hcs b (List.mem_cons_self _ _)) hkey
        subst this
        exact h1 ha
      have hmem2 : ∀ x ∈ kept ++ [c], x ∈ cands := by
        intro x hx
        rcases List.mem_append.mp hx with hx1 | hx2
        · exact hkept x hx1
        · have : x = c := by simpa using hx2
          subst this
          exact hcs x (List.mem_cons_self _ _)
      by_cases h2 : n ≤ (kept ++ [c]).length
      · rw [if_pos h2]
        exact hkept2
      · rw [if_neg h2]
        exact ih (kept ++ [c]) (fun x hx => hcs x (List.mem_cons_of_mem _ hx)) hmem2 hkept2

/-- C6: with key-distinct candidates (which the merged dict guarantees —
its entries are keyed by `(doc_id, chunk_index)`), no two hits returned by
the dedup phase share an identity key; and any two hits kept by the strict
pass with the same `doc_id` have chunk indices more than 1 apart.  In
particular the backfill pass, though it ignores adjacency, never appends a
candidate whose exact identity key is already kept. -/
theorem c6_dedup_invariants (cands : List SearchHit) (n : Nat)
    (hkeys : cands.Pairwise (fun a b => hitKey a ≠ hitKey b)) :
    (dedupPhase cands n).Pairwise (fun a b => hitKey a ≠ hitKey b) ∧
    (strictPass cands n).Pairwise
      (fun a b => a.docId = b.docId → 1 < (a.chunkIndex - b.chunkIndex).natAbs) := by
  obtain ⟨sub, hsub, heq⟩ := strictPassGo_sub n cands []
  have hstrict_eq : strictPass cands n = sub := by
    rw [strictPass, heq]
    simp
  have hstrictKeys : (strictPass cands n).Pairwise (fun a b => hitKey a ≠ hitKey b) := by
    rw [hstrict_eq]
    exact hkeys.sublist hsub
  have hstrictMem : ∀ x ∈ strictPass cands n, x ∈ cands := by
    rw [hstrict_eq]
    exact fun x hx => hsub.subset hx
  constructor
  · rw [dedupPhase]
    by_cases hshort : (strictPass cands n).length < n
    · rw [if_pos hshort]
      exact backfillGo_keyNe hkeys n cands (strictPass cands n)
        (fun x hx => hx) hstrictMem hstrictKeys
    · rw [if_neg hshort]
      exact hstrictKeys
  · exact strictPassGo_adj n cands [] (by simp)

/-- Witness for C6 at a concrete input: three candidates (two adjacent in the
same document), `n = 2`. -/
theorem c6_witness :
    List.Pairwise (fun a b => hitKey a ≠ hitKey b)
      [(⟨strL "d", 0, 1, strL "x", strL "semantic"⟩ : SearchHit),
       ⟨strL "d", 1, 1, strL "y", strL "semantic"⟩,
       ⟨strL "e", 5, 1, strL "z", strL "keyword"⟩] ∧
    (dedupPhase
        [(⟨strL "d", 0, 1, strL "x", strL "semantic"⟩ : SearchHit),
         ⟨strL "d", 1, 1, strL "y", strL "semantic"⟩,
         ⟨strL "e", 5, 1, strL "z", strL "keyword"⟩] 2).Pairwise
      (fun a b => hitKey a ≠ hitKey b) ∧
    (strictPass
        [(⟨strL "d", 0, 1, strL "x", strL "semantic"⟩ : SearchHit),
         ⟨strL "d", 1, 1, strL "y", strL "semantic"⟩,
         ⟨strL "e", 5, 1, strL "z", strL "keyword"⟩] 2).Pairwise
      (fun a b => a.docId = b.docId → 1 < (a.chunkIndex - b.chunkIndex).natAbs) :=
  ⟨by decide,
   (c6_dedup_invariants _ 2 (by decide)).1,
   (c6_dedup_invariants _ 2 (by decide)).2⟩
